import Mathlib

/-!
Verification of the differential-evolution solver core and the collapse
subsystem of the `mystic` repository, against its specification.

The development shallowly embeds, over `ℚ`:

* the generation loop of `DifferentialEvolutionSolver.Solve` and
  `DifferentialEvolutionSolver2.Solve` (src/mystic/differential_evolution.py),
  including genealogy records, the function-call counter installed by
  `wrap_function`, the step monitor, the per-iteration energy history, the
  user callback and the termination hook;
* the minimal interface `diffev` and its warnflag computation;
* the collapse detectors `collapse_at`, `collapse_as`, `collapse_weight`
  and `collapse_position` with their mask validation and mask filters
  (src/mystic/collapse.py);
* the collapse message codec: `collapsed` together with a model of
  Python's `repr`/`eval` on the supported collapse-result shapes.

Randomness inside mutation strategies is abstracted: a strategy is passed
in as a pure function of the population, the best solution and the target
index, which is the interface the solver code uses.
-/

set_option maxHeartbeats 1600000

/-! ## Differential-evolution solver embedding -/

/-- Why the generation loop ended (instrumentation of the three `break`/fall
through paths of `Solve`; not observable data of the original solver). -/
inductive StopCause
  | hitMaxfun
  | terminated
  | exhausted
deriving DecidableEq

/-- Solver state: the mutable attributes of the solver objects that the
`Solve` methods read and write, plus the evaluation counter `fcalls`
(`wrap_function`), the list of step-monitor records `stepLog` (`Sow.x`),
a counter of user-callback invocations and the stop cause. -/
structure DEState where
  population : List (List ℚ)
  popEnergy : List ℚ
  bestSolution : List ℚ
  bestEnergy : ℚ
  trialSolution : List ℚ
  genealogy : List (List (List ℚ))
  energyHistory : List ℚ
  fcalls : ℕ
  stepLog : List (List ℚ)
  callbackCount : ℕ
  cause : Option StopCause
deriving DecidableEq

/-- The inputs of `Solve`: cost function, mutation strategy (a pure function
of population, best solution and target index), termination condition and the
resolved evaluation limits. -/
structure DEParams where
  cost : List ℚ → ℚ
  strategy : List (List ℚ) → List ℚ → ℕ → List ℚ
  termination : DEState → Bool
  NP : ℕ
  maxiter : ℕ
  maxfun : ℕ

/-- `self.bestEnergy = 1.0E20`, the sentinel energy set at the start of
`Solve`. -/
def bigE : ℚ := 10 ^ 20

/-- One candidate of the inner loop of `DifferentialEvolutionSolver.Solve`
(lines 211-225): build the trial via the strategy, evaluate it (incrementing
`fcalls`), and if strictly better replace the member, record the genealogy
entry and possibly the best-so-far. -/
def candidateStep (p : DEParams) (s : DEState) (i : ℕ) : DEState :=
  let t := p.strategy s.population s.bestSolution i
  let e := p.cost t
  let s1 : DEState := { s with trialSolution := t, fcalls := s.fcalls + 1 }
  if e < s1.popEnergy.getD i 0 then
    let s2 : DEState := { s1 with
      popEnergy := s1.popEnergy.set i e,
      population := s1.population.set i t,
      genealogy := s1.genealogy.set i (s1.genealogy.getD i [] ++ [t]) }
    if e < s2.bestEnergy then
      { s2 with bestEnergy := e, bestSolution := t }
    else s2
  else s1

/-- The candidate loop of one generation of the sequential solver. -/
def solverOneGen (p : DEParams) (s : DEState) : DEState :=
  (List.range p.NP).foldl (candidateStep p) s

/-- Trial-construction loop of `DifferentialEvolutionSolver2.Solve`
(lines 353-356), generalized over the candidate list for induction: each
candidate writes `self.trialSolution` and copies it into `trialPop`. -/
def buildTrialsAux (p : DEParams) (start : DEState × List (List ℚ)) (l : List ℕ) :
    DEState × List (List ℚ) :=
  l.foldl
    (fun a i =>
      let t := p.strategy a.1.population a.1.bestSolution i
      ({ a.1 with trialSolution := t }, a.2 ++ [t]))
    start

/-- Phase 1 of a `DifferentialEvolutionSolver2` generation: build all `NP`
trials. -/
def buildTrials (p : DEParams) (s : DEState) : DEState × List (List ℚ) :=
  buildTrialsAux p (s, []) (List.range p.NP)

/-- One candidate of the replacement loop of
`DifferentialEvolutionSolver2.Solve` (lines 360-370).  NOTE: faithful to
line 365, the genealogy entry appended is `s.trialSolution` (the shared
trial buffer, which after the trial-construction phase holds the trial of
the *last* candidate), not `trials[i]`. -/
def repStep (trials : List (List ℚ)) (energies : List ℚ)
    (s : DEState) (i : ℕ) : DEState :=
  let e := energies.getD i 0
  if e < s.popEnergy.getD i 0 then
    let s2 : DEState := { s with
      popEnergy := s.popEnergy.set i e,
      population := s.population.set i (trials.getD i []),
      genealogy := s.genealogy.set i (s.genealogy.getD i [] ++ [s.trialSolution]) }
    if e < s2.bestEnergy then
      { s2 with bestEnergy := e, bestSolution := trials.getD i [] }
    else s2
  else s

/-- Phase 3 of a `DifferentialEvolutionSolver2` generation: apply all
replacements from the evaluated trial population. -/
def applyReps (trials : List (List ℚ)) (energies : List ℚ)
    (s0 : DEState) (l : List ℕ) : DEState :=
  l.foldl (repStep trials energies) s0

/-- One generation of `DifferentialEvolutionSolver2.Solve`: build all trials
against the frozen population, evaluate them all (`map(costfunction,
trialPop)`, `fcalls` advancing by the number of trials), then apply
replacements. -/
def solverTwoGen (p : DEParams) (s : DEState) : DEState :=
  let bt := buildTrials p s
  let energies := bt.2.map p.cost
  applyReps bt.2 energies { bt.1 with fcalls := bt.1.fcalls + bt.2.length } (List.range p.NP)

/-- `StepMonitor(self.bestSolution[:], self.bestEnergy)` at the top of each
generation. -/
def recordStep (s : DEState) : DEState :=
  { s with stepLog := s.stepLog ++ [s.bestSolution] }

/-- The generation loop of `Solve` (lines 208-233 / 350-378), shared by both
solvers via `body`.  Per generation: step monitor; if `fcalls >= maxfun`
break out of the loop entirely; otherwise run the candidate phase, append
`bestEnergy` to the energy history, invoke the callback, and stop if the
termination condition fires.  Returns the final state and the value of
`generation` after the loop. -/
def solveLoop (body : DEParams → DEState → DEState) (p : DEParams) :
    ℕ → ℕ → DEState → DEState × ℕ
  | g, 0, s => ({ s with cause := some .exhausted }, g - 1)
  | g, r + 1, s =>
    let s1 := recordStep s
    if p.maxfun ≤ s1.fcalls then ({ s1 with cause := some .hitMaxfun }, g)
    else
      let s2 := body p s1
      let s3 : DEState := { s2 with
        energyHistory := s2.energyHistory ++ [s2.bestEnergy],
        callbackCount := s2.callbackCount + 1 }
      if p.termination s3 then ({ s3 with cause := some .terminated }, g)
      else solveLoop body p (g + 1) r s3

/-- `Solve`: reset `bestEnergy` to the sentinel and run `maxiter`
generations. -/
def deSolve (body : DEParams → DEState → DEState) (p : DEParams) (s0 : DEState) :
    DEState × ℕ :=
  solveLoop body p 0 p.maxiter { s0 with bestEnergy := bigE, cause := none }

/-- Solver state directly after construction and `SetInitialPoints`-style
setup.  Modelled from the spec: `AbstractSolver` (its module is not under
src/) creates population and energies at initialization, before any cost
function is known; energies start at the solver's sentinel value and
`trialSolution`/`bestSolution` start as zero vectors. -/
def initState (pop : List (List ℚ)) (en : List ℚ) : DEState :=
  { population := pop
    popEnergy := en
    bestSolution := (pop.getD 0 []).map (fun _ => 0)
    bestEnergy := 0
    trialSolution := (pop.getD 0 []).map (fun _ => 0)
    genealogy := pop.map (fun _ => [])
    energyHistory := []
    fcalls := 0
    stepLog := []
    callbackCount := 0
    cause := none }

/-! ## The minimal interface `diffev` -/

/-- Modelled from the spec: `mystic.termination.VTR(ftol)` (module not under
src/) stops when `best_energy <= ftol`. -/
def VTRpred (ftol : ℚ) : DEState → Bool :=
  fun s => decide (s.bestEnergy ≤ ftol)

/-- Modelled from the spec: `mystic.termination.ChangeOverGeneration
(ftol, gtol)` (module not under src/) stops when the best energy `gtol`
iterations ago minus the current best energy is at most `ftol`, once at
least `gtol + 1` iterations have completed. -/
def COGpred (ftol : ℚ) (gtol : ℕ) : DEState → Bool := fun s =>
  decide (gtol + 1 ≤ s.energyHistory.length) &&
  decide (s.energyHistory.getD (s.energyHistory.length - 1 - gtol) 0 -
          s.energyHistory.getD (s.energyHistory.length - 1) 0 ≤ ftol)

/-- Arguments of `diffev` that the claims depend on.  The underlying
mutation strategy (`Best1Exp`, RNG-driven; module not under src/) is
abstracted as a function parameter. -/
structure DiffevArgs where
  cost : List ℚ → ℚ
  strategy : List (List ℚ) → List ℚ → ℕ → List ℚ
  initPop : List (List ℚ)
  initEnergy : List ℚ
  ftol : ℚ
  gtol : Option ℕ
  maxiter : Option ℕ
  maxfun : Option ℕ

/-- The solver parameters `diffev` assembles (lines 469-481): termination is
`ChangeOverGeneration(ftol, gtol)` if `gtol` is provided, else `VTR(ftol)`;
unset limits default inside `Solve` to `dim*npop*10` and `dim*npop*1000`. -/
def diffevParams (a : DiffevArgs) : DEParams :=
  { cost := a.cost
    strategy := a.strategy
    termination :=
      match a.gtol with
      | none => VTRpred a.ftol
      | some g => COGpred a.ftol g
    NP := a.initPop.length
    maxiter := a.maxiter.getD ((a.initPop.getD 0 []).length * a.initPop.length * 10)
    maxfun := a.maxfun.getD ((a.initPop.getD 0 []).length * a.initPop.length * 1000) }

/-- The solver run performed by `diffev` (`invariant_current=True` default,
hence `DifferentialEvolutionSolver2`). -/
def diffevRun (a : DiffevArgs) : DEState × ℕ :=
  deSolve solverTwoGen (diffevParams a) (initState a.initPop a.initEnergy)

/-- The `(x, fval, iterations, fcalls, warnflag)` block of `diffev`
(lines 503-527): `fcalls = len(evalmon.x)` equals the wrapped-function
counter, `iterations = len(stepmon.x)` the number of step-monitor
records. -/
structure DiffevFull where
  x : List ℚ
  fopt : ℚ
  iter : ℕ
  fcalls : ℕ
  warnflag : ℕ
deriving DecidableEq

/-- The four return shapes of `diffev` (lines 526-535). -/
inductive DiffevRet
  | bare (x : List ℚ)
  | withAll (x : List ℚ) (allvecs : List (List ℚ))
  | full (r : DiffevFull)
  | fullAll (r : DiffevFull) (allvecs : List (List ℚ))
deriving DecidableEq

/-- Warnflag computation of `diffev` (lines 510-518): from the final
counters only. -/
def diffevWarnflag (a : DiffevArgs) : ℕ :=
  let p := diffevParams a
  let s := (diffevRun a).1
  if p.maxfun ≤ s.fcalls then 1
  else if p.maxiter ≤ s.stepLog.length then 2
  else 0

/-- `diffev` (lines 407-535) restricted to the pieces visible in its return
value. -/
def diffev (a : DiffevArgs) (fullOutput retall : Bool) : DiffevRet :=
  let s := (diffevRun a).1
  let r : DiffevFull :=
    { x := s.bestSolution
      fopt := s.bestEnergy
      iter := s.stepLog.length
      fcalls := s.fcalls
      warnflag := diffevWarnflag a }
  match fullOutput, retall with
  | true, true => .fullAll r s.stepLog
  | true, false => .full r
  | false, true => .withAll s.bestSolution s.stepLog
  | false, false => .bare s.bestSolution

/-! ## Collapse detectors (src/mystic/collapse.py) -/

/-- Modelled from the spec: `mystic.monitors._solutions` and friends (module
not under src/) hand a detector the monitor's last `n` generations; per the
spec's invariant a monitor holding fewer than `n` generations yields an
empty window (detectors then return the empty container). -/
def window {α : Type} (h : List α) (n : ℕ) : List α :=
  if h.length < n then [] else h.drop (h.length - n)

/-- Maximum of a list of rationals (`numpy max` over a nonempty axis). -/
def qmax : List ℚ → ℚ
  | [] => 0
  | x :: xs => xs.foldl max x

/-- Minimum of a list of rationals. -/
def qmin : List ℚ → ℚ
  | [] => 0
  | x :: xs => xs.foldl min x

/-- The `target` argument of `collapse_at`: absent, scalar, or one value per
parameter. -/
inductive TargetArg
  | noT
  | scalarT (t : ℚ)
  | perT (l : List ℚ)

/-- An element of a `set`-shaped detector mask: a bare integer index or a
tuple of integers (only tuples have `__len__`). -/
inductive MaskElem
  | mInt (n : ℕ)
  | mTup (l : List ℕ)
deriving DecidableEq

/-- The mask argument of `collapse_at` / `collapse_as`: `None`, a `set`, or
a value of some other container type (rejected with `TypeError`). -/
inductive MaskA
  | maNone
  | maSet (elems : List MaskElem)
  | maOther

/-- The typed errors raised by detector mask validation. -/
inductive DErr
  | typeErr
  | valueErr
deriving DecidableEq

/-- `hasattr(i, '__len__')`. -/
def hasLen : MaskElem → Bool
  | .mInt _ => false
  | .mTup _ => true

/-- Column `j` of the window (`params[:, j]`). -/
def colAt (win : List (List ℚ)) (j : ℕ) : List ℚ :=
  win.map (fun row => row.getD j 0)

/-- Per-index collapse measure of `collapse_at` (lines 39-40):
`ptp` of the column when `target is None`, else the max distance to the
target (scalar target broadcast, list target read per index). -/
def chgAt (tgt : TargetArg) (win : List (List ℚ)) (j : ℕ) : ℚ :=
  match tgt with
  | .noT => qmax (colAt win j) - qmin (colAt win j)
  | .scalarT t => qmax ((colAt win j).map (fun v => |v - t|))
  | .perT l => qmax ((colAt win j).map (fun v => |v - l.getD j 0|))

/-- Number of parameters in the window (row width; 0 for an empty
window). -/
def dimOf (win : List (List ℚ)) : ℕ := (win.getD 0 []).length

/-- The tolerance test of `collapse_at` after `tolerance.shape = (-1,1)`:
the change at an index passes if it is below *some* entry of the tolerance
array (the `(D,) <= (k,1)` comparison broadcasts to a matrix and
`np.where(...)[-1]` keeps the column index of every true cell; a scalar
tolerance is the singleton list). -/
def tolOK (tols : List ℚ) (c : ℚ) : Bool :=
  tols.any (fun t => decide (c ≤ t))

/-- `collapse_at` (lines 12-46): validate the mask, then return the set of
parameter indices whose change over the window is within tolerance, minus
the mask. -/
def collapse_at (h : List (List ℚ)) (tgt : TargetArg) (tols : List ℚ) (n : ℕ)
    (mask : MaskA) : Except DErr (Finset ℕ) :=
  match mask with
  | .maOther => .error .typeErr
  | .maSet elems =>
    if elems.any hasLen then .error .valueErr
    else
      let win := window h n
      .ok (((List.range (dimOf win)).filter
        (fun j => tolOK tols (chgAt tgt win j) && !(decide (MaskElem.mInt j ∈ elems)))).toFinset)
  | .maNone =>
    let win := window h n
    .ok (((List.range (dimOf win)).filter
      (fun j => tolOK tols (chgAt tgt win j))).toFinset)

/-- All index pairs `(i, j)` with `i < j < d`, in the row-major order of
`mystic.tools.pairwise`. -/
def pairList (d : ℕ) : List (ℕ × ℕ) :=
  (List.range d).flatMap (fun i => ((List.range d).drop (i + 1)).map (fun j => (i, j)))

/-- Pairwise collapse measure of `collapse_as` (lines 84-87), with
`pairwise` (module not under src/) modelled from the spec: the pairwise
distance trajectory of a pair, reduced by `max` (offset=False: tracking at
the same position) or by `ptp` (offset=True: tracking at a constant
offset). -/
def chgAs (offset : Bool) (win : List (List ℚ)) (pr : ℕ × ℕ) : ℚ :=
  let diffs := win.map (fun row => row.getD pr.1 0 - row.getD pr.2 0)
  if offset then qmax diffs - qmin diffs
  else qmax (diffs.map (fun v => |v|))

/-- A bad element of a `collapse_as` set mask (lines 63-66): something with
`__len__` whose length is not 2. -/
def badAsElem : MaskElem → Bool
  | .mInt _ => false
  | .mTup l => decide (l.length ≠ 2)

/-- `selector` (lines 259-262) for a mixed mask of pairs and bare indices:
a pair is masked if it or its reverse is listed, or if either of its
endpoints is listed as a bare index. -/
def selAs (elems : List MaskElem) (pr : ℕ × ℕ) : Bool :=
  decide (MaskElem.mTup [pr.1, pr.2] ∈ elems) || decide (MaskElem.mTup [pr.2, pr.1] ∈ elems) ||
  decide (MaskElem.mInt pr.1 ∈ elems) || decide (MaskElem.mInt pr.2 ∈ elems)

/-- `collapse_as` (lines 49-95): validate the mask, then return the set of
index pairs whose pairwise trajectory collapses within tolerance, minus the
pairs selected by the mask. -/
def collapse_as (h : List (List ℚ)) (offset : Bool) (tol : ℚ) (n : ℕ)
    (mask : MaskA) : Except DErr (Finset (ℕ × ℕ)) :=
  match mask with
  | .maOther => .error .typeErr
  | .maSet elems =>
    if elems.any badAsElem then .error .valueErr
    else
      let win := window h n
      .ok (((pairList (dimOf win)).filter
        (fun pr => decide (chgAs offset win pr ≤ tol) && !(selAs elems pr))).toFinset)
  | .maNone =>
    let win := window h n
    .ok (((pairList (dimOf win)).filter
      (fun pr => decide (chgAs offset win pr ≤ tol))).toFinset)

/-- `(measures, entries-per-measure)` dimensions of a weight or position
window. -/
def wdims (win : List (List (List ℚ))) : ℕ × ℕ :=
  ((win.getD 0 []).length, ((win.getD 0 []).getD 0 []).length)

/-- Trajectory of weight `w` of measure `m` across the window
(`w[:, m, w]`). -/
def wcol (win : List (List (List ℚ))) (m w : ℕ) : List ℚ :=
  win.map (fun g => (g.getD m []).getD w 0)

/-- The collapsed `(measure, index)` cells of `collapse_weight` (line 138),
in the row-major order of `np.where`. -/
def wcells (win : List (List (List ℚ))) (tol : ℚ) : List (ℕ × ℕ) :=
  (List.range (wdims win).1).flatMap (fun m =>
    ((List.range (wdims win).2).filter
      (fun w => decide (qmax (wcol win m w) ≤ tol))).map (fun w => (m, w)))

/-- The mask argument of `collapse_weight`: `None`, a set of
`(measure, index)` pairs, a dict `{measure: set of indices}`, or a where
tuple `(measures, indices)`. -/
inductive MaskW
  | wNone
  | wSet (r : List (ℕ × ℕ))
  | wDict (r : List (ℕ × Finset ℕ))
  | wWhere (ms ws : List ℕ)

/-- The three return shapes of `collapse_weight`; the mask's shape selects
the result's shape. -/
inductive ResultW
  | rwDict (d : List (ℕ × Finset ℕ))
  | rwSet (s : Finset (ℕ × ℕ))
  | rwWhere (ms ws : List ℕ)
deriving DecidableEq

/-- `{measure: indices}` association list built from collapse cells (line
152): keys in first-appearance (ascending) order, only measures with at
least one cell. -/
def dictOf {β : Type} [DecidableEq β] (cells : List (ℕ × β)) : List (ℕ × Finset β) :=
  ((cells.map Prod.fst).dedup).map
    (fun m => (m, ((cells.filter (fun c => decide (c.1 = m))).map Prod.snd).toFinset))

/-- `mask.get(m, set())` on an association-list dict. -/
def dget {β : Type} [DecidableEq β] (r : List (ℕ × Finset β)) (m : ℕ) : Finset β :=
  match r.find? (fun e => decide (e.1 = m)) with
  | some e => e.2
  | none => ∅

/-- The dict filter of `_weight_filter` (line 274): subtract the mask's set
for each measure, keep only nonempty values. -/
def subWDict (x r : List (ℕ × Finset ℕ)) : List (ℕ × Finset ℕ) :=
  (x.map (fun e => (e.1, e.2 \ dget r e.1))).filter (fun e => decide (e.2 ≠ ∅))

/-- `collapse_weight` (lines 98-152): collapse cells of the weight history,
formatted and filtered according to the mask's shape (`_weight_filter`,
lines 264-279). -/
def collapse_weight (h : List (List (List ℚ))) (tol : ℚ) (n : ℕ)
    (mask : MaskW) : ResultW :=
  let win := window h n
  let cells := wcells win tol
  match mask with
  | .wNone => .rwDict (dictOf cells)
  | .wSet r => .rwSet (cells.toFinset \ r.toFinset)
  | .wDict r => .rwDict (subWDict (dictOf cells) r)
  | .wWhere ms ws =>
    let keep := cells.filter (fun c => !(decide (c ∈ ms.zip ws)))
    .rwWhere (keep.map Prod.fst) (keep.map Prod.snd)

/-- Position trajectory distance of a pair inside measure `m`. -/
def pcol (win : List (List (List ℚ))) (m : ℕ) (pr : ℕ × ℕ) : List ℚ :=
  win.map (fun g => |(g.getD m []).getD pr.1 0 - (g.getD m []).getD pr.2 0|)

/-- The collapsed `(measure, pair)` cells of `collapse_position`
(lines 201-216). -/
def pcells (win : List (List (List ℚ))) (tol : ℚ) : List (ℕ × (ℕ × ℕ)) :=
  (List.range (wdims win).1).flatMap (fun m =>
    ((pairList (wdims win).2).filter
      (fun pr => decide (qmax (pcol win m pr) ≤ tol))).map (fun pr => (m, pr)))

/-- Reverse a pair (`mystic.tools._inverted`, modelled from its use). -/
def pinv (pr : ℕ × ℕ) : ℕ × ℕ := (pr.2, pr.1)

/-- Symmetric closure of a set of pairs (`mystic.tools._symmetric`,
modelled from its use in `_position_filter`). -/
def symmClose (s : Finset (ℕ × ℕ)) : Finset (ℕ × ℕ) :=
  s ∪ s.image pinv

/-- The mask argument of `collapse_position`. -/
inductive MaskP
  | pNone
  | pSet (r : List (ℕ × (ℕ × ℕ)))
  | pDict (r : List (ℕ × Finset (ℕ × ℕ)))
  | pWhere (ms : List ℕ) (prs : List (ℕ × ℕ))

/-- The three return shapes of `collapse_position`. -/
inductive ResultP
  | rpDict (d : List (ℕ × Finset (ℕ × ℕ)))
  | rpSet (s : Finset (ℕ × (ℕ × ℕ)))
  | rpWhere (ms : List ℕ) (prs : List (ℕ × ℕ))
deriving DecidableEq

/-- `collapse_position` (lines 155-237) with `_position_filter`
(lines 281-306): collapse cells of the position history, formatted per the
mask's shape; a set mask subtracts itself and its measure-wise reversed
pairs, a dict mask subtracts the symmetric closure per measure, a where
mask filters out its cells and their reversed-pair versions. -/
def collapse_position (h : List (List (List ℚ))) (tol : ℚ) (n : ℕ)
    (mask : MaskP) : ResultP :=
  let win := window h n
  let cells := pcells win tol
  match mask with
  | .pNone => .rpDict (dictOf cells)
  | .pSet r =>
    .rpSet ((cells.toFinset \ r.toFinset) \ (r.map (fun c => (c.1, pinv c.2))).toFinset)
  | .pDict r =>
    .rpDict (((dictOf cells).map
      (fun e => (e.1, e.2 \ symmClose (dget r e.1)))).filter
        (fun e => decide (e.2 ≠ ∅)))
  | .pWhere ms prs =>
    let bad := (ms ++ ms).zip (prs ++ prs.map pinv)
    let keep := cells.filter (fun c => !(decide (c ∈ bad)))
    .rpWhere (keep.map Prod.fst) (keep.map Prod.snd)

/-! ## Collapse message codec (collapse.py `collapsed`, lines 310-318)

Messages are modelled as `List Char`.  `eval` is modelled by an executable
parser `pyEval` for the Python literals that `repr` produces on the
supported collapse-result shapes; `repr` itself is modelled by `reprVal`. -/

/-- Left brace character (avoiding brace literals in strings). -/
def lbr : Char := Char.ofNat 123

/-- Right brace character. -/
def rbr : Char := Char.ofNat 125

/-- An element of a Python `set` literal in a collapse result: a bare
(nonnegative) int or a pair of ints. -/
inductive PyElem
  | pint (n : ℕ)
  | ppair (a b : ℕ)
deriving DecidableEq

/-- The supported collapse-result shapes (spec section 3): a set of indices
or of index pairs, a dict of measure to index set, and the where tuple of
two equal-length index vectors.  `pwhere [] []` plays the role of the empty
tuple `()` that the where format degenerates to when no cell remains. -/
inductive PyVal
  | pset (elems : List PyElem)
  | pdict (entries : List (ℕ × List ℕ))
  | pwhere (ms idx : List ℕ)
deriving DecidableEq

/-- Decimal digit character. -/
def digitChar : ℕ → Char
  | 0 => '0'
  | 1 => '1'
  | 2 => '2'
  | 3 => '3'
  | 4 => '4'
  | 5 => '5'
  | 6 => '6'
  | 7 => '7'
  | 8 => '8'
  | _ => '9'

/-- Python `repr` of a nonnegative int. -/
def reprNat (n : ℕ) : List Char :=
  if n = 0 then ['0'] else (Nat.digits 10 n).reverse.map digitChar

/-- `", "`, the element separator inside the literals. -/
def sepCS : List Char := [',', ' ']

/-- `repr` of a set element. -/
def reprElem : PyElem → List Char
  | .pint n => reprNat n
  | .ppair a b => '(' :: (reprNat a ++ sepCS ++ reprNat b) ++ [')']

/-- Join chunks with `", "` (the separator Python `repr` uses inside
set/tuple/dict literals). -/
def joinCS : List (List Char) → List Char
  | [] => []
  | [x] => x
  | x :: rest => x ++ [',', ' '] ++ joinCS rest

/-- `"set(["`. -/
def strSetOpen : List Char := ['s', 'e', 't', '(', '[']

/-- `"])"`. -/
def strSetClose : List Char := [']', ')']

/-- Python 2 `repr` of a set of ints (`set([...])`), elements in the
canonical iteration order. -/
def reprIntSet (l : List ℕ) : List Char :=
  strSetOpen ++ joinCS (l.map reprNat) ++ strSetClose

/-- Python 2 `repr` of a set of set elements. -/
def reprElemSet (l : List PyElem) : List Char :=
  strSetOpen ++ joinCS (l.map reprElem) ++ strSetClose

/-- `repr` of one dict entry `measure: set([...])`. -/
def reprEntry (e : ℕ × List ℕ) : List Char :=
  reprNat e.1 ++ [':', ' '] ++ reprIntSet e.2

/-- `repr` of a tuple of ints, with Python's singleton trailing comma. -/
def reprTupleNat (l : List ℕ) : List Char :=
  match l with
  | [] => ['(', ')']
  | [a] => '(' :: (reprNat a ++ [',', ')'])
  | _ => '(' :: (joinCS (l.map reprNat) ++ [')'])

/-- `repr` of a collapse result value. -/
def reprVal : PyVal → List Char
  | .pset l => reprElemSet l
  | .pdict l =>
    if l = [] then [lbr, rbr]
    else lbr :: (joinCS (l.map reprEntry) ++ [rbr])
  | .pwhere ms idx =>
    if ms = [] ∧ idx = [] then ['(', ')']
    else '(' :: ((reprTupleNat ms ++ sepCS ++ reprTupleNat idx) ++ [')'])

/-- Bracket-depth update for one character. -/
def upd (d : ℕ) (c : Char) : ℕ :=
  if c = '(' ∨ c = '[' ∨ c = lbr then d + 1
  else if c = ')' ∨ c = ']' ∨ c = rbr then d - 1
  else d

/-- Split a literal body at top-level commas (depth 0), used by the parser
to recover the elements that `repr` joined with `", "`; chunks after the
first keep their leading space, which `trimSp` removes. -/
def splitTop : ℕ → List Char → List Char → List (List Char)
  | _, [], acc => [acc.reverse]
  | d, c :: rest, acc =>
    if d = 0 ∧ c = ',' then acc.reverse :: splitTop 0 rest []
    else splitTop (upd d c) rest (c :: acc)

/-- Drop leading spaces. -/
def trimSp (l : List Char) : List Char :=
  l.dropWhile (fun c => c = ' ')

/-- Digit test. -/
def isDig (c : Char) : Bool :=
  decide (48 ≤ c.toNat) && decide (c.toNat ≤ 57)

/-- Digit value. -/
def digVal (c : Char) : ℕ := c.toNat - 48

/-- Parse a nonnegative decimal int. -/
def parseNat (l : List Char) : Option ℕ :=
  match l with
  | [] => none
  | _ =>
    if l.all isDig then some (l.foldl (fun a c => 10 * a + digVal c) 0)
    else none

/-- Strip an exact prefix. -/
def stripPre : List Char → List Char → Option (List Char)
  | [], s => some s
  | _ :: _, [] => none
  | p :: ps, c :: cs => if c = p then stripPre ps cs else none

/-- Strip an exact suffix. -/
def stripSuf (suf s : List Char) : Option (List Char) :=
  (stripPre suf.reverse s.reverse).map List.reverse

/-- Strip a prefix and a suffix. -/
def stripWrap (pre suf s : List Char) : Option (List Char) :=
  (stripPre pre s).bind (stripSuf suf)

/-- Parse the items of a joined element list. -/
def parseItems {α : Type} (f : List Char → Option α) (inner : List Char) :
    Option (List α) :=
  match inner with
  | [] => some []
  | _ => (splitTop 0 inner []).mapM (fun c => f (trimSp c))

/-- Parse a pair literal `(a, b)` of ints. -/
def parsePair (l : List Char) : Option PyElem :=
  (stripWrap ['('] [')'] l).bind (fun inner =>
    match splitTop 0 inner [] with
    | [x, y] =>
      match parseNat (trimSp x), parseNat (trimSp y) with
      | some a, some b => some (.ppair a b)
      | _, _ => none
    | _ => none)

/-- Parse a set element: int or pair. -/
def parseElem (l : List Char) : Option PyElem :=
  match l with
  | '(' :: _ => parsePair l
  | _ => (parseNat l).map .pint

/-- Parse `set([...])` with arbitrary elements. -/
def parseSetV (l : List Char) : Option PyVal :=
  (stripWrap strSetOpen strSetClose l).bind (fun inner =>
    (parseItems parseElem inner).map .pset)

/-- Parse `set([...])` of ints only (dict entry values). -/
def parseIntSet (l : List Char) : Option (List ℕ) :=
  (stripWrap strSetOpen strSetClose l).bind (fun inner =>
    parseItems parseNat inner)

/-- Parse one dict entry `k: set([...])`. -/
def parseEntry (l : List Char) : Option (ℕ × List ℕ) :=
  let ks := l.takeWhile (fun c => !(c = ':'))
  match parseNat ks, l.drop ks.length with
  | some k, ':' :: ' ' :: v => (parseIntSet v).map (fun s => (k, s))
  | _, _ => none

/-- Parse a dict literal. -/
def parseDictV (l : List Char) : Option PyVal :=
  match l with
  | [] => none
  | c :: rest =>
    if c = lbr ∧ rest.getLast? = some rbr then
      (parseItems parseEntry rest.dropLast).map .pdict
    else none

/-- Parse an int tuple, accepting the singleton trailing comma. -/
def parseTupleNat (l : List Char) : Option (List ℕ) :=
  (stripWrap ['('] [')'] l).bind (fun inner =>
    match inner with
    | [] => some []
    | _ =>
      let inner2 := if inner.getLast? = some ',' then inner.dropLast else inner
      (splitTop 0 inner2 []).mapM (fun c => parseNat (trimSp c)))

/-- Parse a where tuple `((...), (...))`, or the bare `()`. -/
def parseWhereV (l : List Char) : Option PyVal :=
  (stripWrap ['('] [')'] l).bind (fun inner =>
    match inner with
    | [] => some (.pwhere [] [])
    | _ =>
      match splitTop 0 inner [] with
      | [x, y] =>
        match parseTupleNat (trimSp x), parseTupleNat (trimSp y) with
        | some ms, some idx => some (.pwhere ms idx)
        | _, _ => none
      | _ => none)

/-- The model of `eval` restricted to the literals `repr` produces on
collapse results: dispatch on the first character. -/
def pyEval (l : List Char) : Option PyVal :=
  match l with
  | [] => none
  | 's' :: _ => parseSetV l
  | '(' :: _ => parseWhereV l
  | c :: _ => if c = lbr then parseDictV l else none

/-- Python `message.split('; ')`: left-to-right scan, empties kept. -/
def splitSemi : List Char → List Char → List (List Char)
  | [], acc => [acc.reverse]
  | ';' :: ' ' :: rest, acc => acc.reverse :: splitSemi rest []
  | c :: rest, acc => splitSemi rest (c :: acc)

/-- Executable exact-prefix test. -/
def isPre : List Char → List Char → Bool
  | [], _ => true
  | _ :: _, [] => false
  | a :: as, b :: bs => decide (a = b) && isPre as bs

/-- Position of the last (rightmost) occurrence of `pat` in `s`, the
search `rsplit(pat, 1)` performs. -/
def lastOcc (pat : List Char) : List Char → Option ℕ
  | [] => if isPre pat [] then some 0 else none
  | c :: rest =>
    match lastOcc pat rest with
    | some k => some (k + 1)
    | none => if isPre pat (c :: rest) then some 0 else none

/-- Substring test. -/
def hasSub (pat : List Char) : List Char → Bool
  | [] => isPre pat []
  | c :: rest => isPre pat (c :: rest) || hasSub pat rest

/-- `" at "`, the clause separator of the reason grammar. -/
def strAt : List Char := [' ', 'a', 't', ' ']

/-- Python dict assignment `collapses[name] = value`: replace in place or
append. -/
def upsert (acc : List (List Char × PyVal)) (k : List Char) (v : PyVal) :
    List (List Char × PyVal) :=
  if acc.any (fun e => decide (e.1 = k)) then
    acc.map (fun e => if e.1 = k then (k, v) else e)
  else acc ++ [(k, v)]

/-- The clause loop of `collapsed` (lines 314-317): `rsplit(' at ', 1)`,
skip clauses without the separator, `eval` the payload (a failing `eval`
aborts the call: outer `none`). -/
def collapsedGo : List (List Char) → List (List Char × PyVal) →
    Option (List (List Char × PyVal))
  | [], acc => some acc
  | c :: rest, acc =>
    match lastOcc strAt c with
    | none => collapsedGo rest acc
    | some p =>
      match pyEval (c.drop (p + strAt.length)) with
      | none => none
      | some v => collapsedGo rest (upsert acc (c.take p) v)

/-- `collapsed(message)`: outer `none` models a raised exception, inner
`none` the `return None` on an empty mapping. -/
def collapsed (msg : List Char) : Option (Option (List (List Char × PyVal))) :=
  (collapsedGo (splitSemi msg []) []).map (fun l => if l = [] then none else some l)

/-- Modelled from the spec: the encode side of the codec
(`mystic.termination`'s detector-backed conditions are not under src/):
`encode(name, result) = "name at repr(result)"`. -/
def encodeClause (name : List Char) (v : PyVal) : List Char :=
  name ++ strAt ++ reprVal v

/-- Join clauses with `"; "`. -/
def joinSemi : List (List Char) → List Char
  | [] => []
  | [x] => x
  | x :: rest => x ++ [';', ' '] ++ joinSemi rest

/-- Modelled from the spec: combinators concatenate clauses with `"; "`. -/
def encodeReason (clauses : List (List Char × PyVal)) : List Char :=
  joinSemi (clauses.map (fun e => encodeClause e.1 e.2))

/-! ## Derived predicates and concrete inputs used by the claims -/

deriving instance DecidableEq for Except

/-- The spec's alignment invariant at slot `i`: the stored energy equals the
cost of the stored member. -/
def Aligned (cost : List ℚ → ℚ) (s : DEState) (i : ℕ) : Prop :=
  s.popEnergy.getD i 0 = cost (s.population.getD i [])

instance (cost : List ℚ → ℚ) (s : DEState) (i : ℕ) : Decidable (Aligned cost s i) := by
  unfold Aligned
  infer_instance

/-- Structural well-formedness of the solver state: energies, genealogy and
population have the same length (as `AbstractSolver` construction
guarantees). -/
def SameShape (s : DEState) : Prop :=
  s.popEnergy.length = s.population.length ∧ s.genealogy.length = s.population.length

instance (s : DEState) : Decidable (SameShape s) := by
  unfold SameShape
  infer_instance

/-- Same-shape containment of `collapse_weight` results. -/
def ResultWLE : ResultW → ResultW → Prop
  | .rwSet a, .rwSet b => a ⊆ b
  | .rwDict a, .rwDict b => ∀ m, dget a m ⊆ dget b m
  | .rwWhere am aw, .rwWhere bm bw => (am.zip aw).Sublist (bm.zip bw)
  | _, _ => False

/-- Same-shape containment of `collapse_position` results. -/
def ResultPLE : ResultP → ResultP → Prop
  | .rpSet a, .rpSet b => a ⊆ b
  | .rpDict a, .rpDict b => ∀ m, dget a m ⊆ dget b m
  | .rpWhere am aw, .rpWhere bm bw => (am.zip aw).Sublist (bm.zip bw)
  | _, _ => False

/-- Cost returning the first coordinate. -/
def costId0 : List ℚ → ℚ := fun v => v.getD 0 0

/-- Constant-zero cost. -/
def costZero : List ℚ → ℚ := fun _ => 0

/-- Constant cost larger than the initialization sentinel. -/
def costBig2 : List ℚ → ℚ := fun _ => 10 ^ 21

/-- Concrete `DifferentialEvolutionSolver2` input for the genealogy claim:
two slots whose generation builds the distinct trials `[1]` and `[9]`. -/
def exC1p : DEParams :=
  { cost := costId0
    strategy := fun _ _ i => if i = 0 then [1] else [9]
    termination := fun _ => false
    NP := 2
    maxiter := 1
    maxfun := 100 }

/-- Initial state for the genealogy claim. -/
def exC1s : DEState := initState [[7], [8]] [bigE, bigE]

/-- Concrete sequential-solver input for the `max_fun` claim: two slots and
`maxfun = 1`, so the limit is crossed inside the first generation. -/
def exC2p : DEParams :=
  { cost := costZero
    strategy := fun _ _ _ => [0]
    termination := fun _ => false
    NP := 2
    maxiter := 3
    maxfun := 1 }

/-- Initial state for the `max_fun` claim. -/
def exC2s : DEState := initState [[5], [6]] [bigE, bigE]

/-- Concrete sequential-solver input for the alignment claim: the cost is
everywhere above the initialization energy, so the single slot is never
replaced. -/
def exC4p : DEParams :=
  { cost := costBig2
    strategy := fun _ _ _ => [3]
    termination := fun _ => false
    NP := 1
    maxiter := 1
    maxfun := 100 }

/-- Initial state for the alignment claim. -/
def exC4s : DEState := initState [[7]] [bigE]

/-- A small aligned well-formed state for the alignment witness. -/
def exC4wp : DEParams :=
  { cost := costId0
    strategy := fun _ _ _ => [1]
    termination := fun _ => false
    NP := 1
    maxiter := 1
    maxfun := 10 }

/-- The matching aligned state: energy `2` for member `[2]` under
`costId0`. -/
def exC4ws : DEState := initState [[2]] [2]

/-- Concrete `diffev` input for the warnflag claim: the cost is identically
zero so `VTR(ftol)` fires on the first generation, while `maxiter = 1` makes
the step count reach the iteration limit in the same generation. -/
def exC9 : DiffevArgs :=
  { cost := costZero
    strategy := fun _ _ _ => [0]
    initPop := [[5], [6]]
    initEnergy := [bigE, bigE]
    ftol := 1
    gtol := none
    maxiter := some 1
    maxfun := some 100 }

/-- The same run with room left in the iteration budget: the predicate fires
with both counters below their limits. -/
def exC9w : DiffevArgs := { exC9 with maxiter := some 5 }

/-- A two-generation, three-parameter history for detector witnesses. -/
def exH : List (List ℚ) := [[0, 5, 1], [0, 6, 1]]

/-- A two-generation, two-measure, two-entry weight/position history for
detector witnesses. -/
def exWH : List (List (List ℚ)) := [[[0, 3], [1, 0]], [[0, 4], [2, 0]]]

/-! ## Auxiliary notions for the codec proofs -/

/-- Run the depth counter over characters starting from a positive depth,
failing if the depth ever returns to zero (no top-level split can occur
inside such a segment). -/
def chk : List Char → ℕ → Option ℕ
  | [], d => some d
  | c :: cs, d => if upd d c = 0 then none else chk cs (upd d c)

/-- `semiFree xs nxt`: scanning `xs` (followed by a character `nxt`), no
`"; "` separator starts inside `xs`. -/
def semiFree : List Char → Option Char → Bool
  | [], _ => true
  | c :: tl, nxt =>
    !(decide (c = ';') && decide ((tl.head?).or nxt = some ' ')) && semiFree tl nxt

/-- A chunk the top-level splitter passes over without splitting. -/
def ConsumesTop (xs : List Char) : Prop :=
  ∀ acc rest, splitTop 0 (xs ++ rest) acc = splitTop 0 rest (xs.reverse ++ acc)

/-- The characters Python `repr` emits for collapse results: digits and the
fixed punctuation — in particular neither `a` nor `;`. -/
def reprChar (c : Char) : Prop :=
  isDig c = true ∨ c ∈ ['s', 'e', 't', '(', ')', '[', ']', ',', ' ', ':', lbr, rbr]

instance (c : Char) : Decidable (reprChar c) := by
  unfold reprChar
  infer_instance

/-- Characters that leave the bracket depth unchanged. -/
def neu (c : Char) : Bool :=
  !(decide (c = '(') || decide (c = '[') || decide (c = lbr) ||
    decide (c = ')') || decide (c = ']') || decide (c = rbr))

/-! ## List helper lemmas -/

theorem getD_set_self {α : Type} (l : List α) (i : ℕ) (a d : α) :
    (l.set i a).getD i d = if i < l.length then a else d := by
  induction l generalizing i with
  | nil => simp
  | cons x xs ih =>
    cases i with
    | zero => simp
    | succ n => simpa [Nat.succ_lt_succ_iff] using ih n

theorem getD_set_ne {α : Type} (l : List α) {i j : ℕ} (h : i ≠ j) (a d : α) :
    (l.set j a).getD i d = l.getD i d := by
  induction l generalizing i j with
  | nil => simp
  | cons x xs ih =>
    cases j with
    | zero =>
      cases i with
      | zero => exact absurd rfl h
      | succ m => simp
    | succ n =>
      cases i with
      | zero => simp
      | succ m =>
        have hmn : m ≠ n := fun hm => h (by simp [hm])
        simpa using ih hmn

theorem getD_of_len_le {α : Type} {l : List α} {i : ℕ} (h : l.length ≤ i) (d : α) :
    l.getD i d = d := by
  induction l generalizing i with
  | nil => simp
  | cons x xs ih =>
    cases i with
    | zero => simp at h
    | succ n =>
      simp only [List.length_cons, Nat.succ_le_succ_iff] at h
      simpa using ih h

/-! ## Per-candidate lemmas for the sequential solver -/

theorem candidateStep_len (p : DEParams) (s : DEState) (j : ℕ) :
    (candidateStep p s j).population.length = s.population.length ∧
    (candidateStep p s j).popEnergy.length = s.popEnergy.length ∧
    (candidateStep p s j).genealogy.length = s.genealogy.length := by
  refine ⟨?_, ?_, ?_⟩ <;>
    (simp only [candidateStep]
     split
     · split <;> simp [List.length_set]
     · simp)

theorem candidateStep_shape (p : DEParams) (s : DEState) (j : ℕ) (hs : SameShape s) :
    SameShape (candidateStep p s j) := by
  obtain ⟨h1, h2⟩ := hs
  obtain ⟨l1, l2, l3⟩ := candidateStep_len p s j
  exact ⟨by rw [l1, l2, h1], by rw [l1, l3, h2]⟩

theorem candidateStep_align (p : DEParams) (s : DEState) (j i : ℕ)
    (hs : SameShape s) (ha : Aligned p.cost s i) :
    Aligned p.cost (candidateStep p s j) i := by
  obtain ⟨h1, _⟩ := hs
  unfold Aligned at ha ⊢
  simp only [candidateStep]
  split
  · split
    all_goals
      by_cases hij : i = j
      · subst hij
        simp only
        rw [getD_set_self, getD_set_self]
        by_cases hl : i < s.population.length
        · simp [hl, h1 ▸ hl]
        · have e1 : s.popEnergy.getD i 0 = 0 :=
            getD_of_len_le (by omega) 0
          have e2 : s.population.getD i [] = [] :=
            getD_of_len_le (by omega) []
          rw [e1, e2] at ha
          simp [hl, h1 ▸ hl, ha]
      · simp only
        rw [getD_set_ne _ hij, getD_set_ne _ hij]
        exact ha
  · exact ha

theorem candidateStep_gen_mono (p : DEParams) (s : DEState) (j i : ℕ) :
    (s.genealogy.getD i []).length ≤
      ((candidateStep p s j).genealogy.getD i []).length := by
  simp only [candidateStep]
  split
  · split
    all_goals
      by_cases hij : i = j
      · subst hij
        simp only
        rw [getD_set_self]
        by_cases hl : i < s.genealogy.length
        · rw [if_pos hl]
          simp
        · rw [if_neg hl]
          have e1 : s.genealogy.getD i [] = [] := getD_of_len_le (by omega) []
          rw [e1]
      · simp only
        rw [getD_set_ne _ hij]
  · simp

theorem candidateStep_grow (p : DEParams) (s : DEState) (j i : ℕ)
    (hs : SameShape s)
    (hg : (s.genealogy.getD i []).length <
      ((candidateStep p s j).genealogy.getD i []).length) :
    Aligned p.cost (candidateStep p s j) i := by
  obtain ⟨h1, h2⟩ := hs
  unfold Aligned
  simp only [candidateStep] at hg ⊢
  split at hg
  · rename_i hrep
    rw [if_pos hrep]
    by_cases hij : i = j
    · subst hij
      by_cases hl : i < s.genealogy.length
      · have hl1 : i < s.popEnergy.length := by omega
        have hl2 : i < s.population.length := by omega
        split
        all_goals
          simp only
          rw [getD_set_self, getD_set_self, if_pos hl1, if_pos hl2]
      · exfalso
        split at hg
        all_goals
          dsimp only at hg
          rw [getD_set_self, if_neg hl] at hg
          have e1 : s.genealogy.getD i [] = [] := getD_of_len_le (by omega) []
          rw [e1] at hg
          simp at hg
    · exfalso
      split at hg
      all_goals
        dsimp only at hg
        rw [getD_set_ne _ hij] at hg
        omega
  · exfalso
    dsimp only at hg
    omega

theorem foldl_candidate_shape (p : DEParams) (l : List ℕ) (s : DEState)
    (hs : SameShape s) : SameShape (l.foldl (candidateStep p) s) := by
  induction l generalizing s with
  | nil => exact hs
  | cons j l ih => exact ih _ (candidateStep_shape p s j hs)

theorem foldl_candidate_align (p : DEParams) (l : List ℕ) (s : DEState) (i : ℕ)
    (hs : SameShape s) (ha : Aligned p.cost s i) :
    Aligned p.cost (l.foldl (candidateStep p) s) i := by
  induction l generalizing s with
  | nil => exact ha
  | cons j l ih =>
    exact ih _ (candidateStep_shape p s j hs) (candidateStep_align p s j i hs ha)

theorem foldl_candidate_grow (p : DEParams) (l : List ℕ) (s : DEState) (i : ℕ)
    (hs : SameShape s)
    (hg : (s.genealogy.getD i []).length <
      ((l.foldl (candidateStep p) s).genealogy.getD i []).length) :
    Aligned p.cost (l.foldl (candidateStep p) s) i := by
  induction l generalizing s with
  | nil => exact absurd hg (by simp)
  | cons j l ih =>
    simp only [List.foldl_cons] at hg ⊢
    by_cases hg1 : (s.genealogy.getD i []).length <
        (((candidateStep p s j)).genealogy.getD i []).length
    · exact foldl_candidate_align p l _ i (candidateStep_shape p s j hs)
        (candidateStep_grow p s j i hs hg1)
    · have heq : ((candidateStep p s j).genealogy.getD i []).length =
          (s.genealogy.getD i []).length := by
        have := candidateStep_gen_mono p s j i
        omega
      exact ih _ (candidateStep_shape p s j hs) (by omega)

/-! ## Per-candidate lemmas for the replacement loop of the second solver -/

theorem repStep_len (trials : List (List ℚ)) (energies : List ℚ)
    (s : DEState) (j : ℕ) :
    (repStep trials energies s j).population.length = s.population.length ∧
    (repStep trials energies s j).popEnergy.length = s.popEnergy.length ∧
    (repStep trials energies s j).genealogy.length = s.genealogy.length := by
  refine ⟨?_, ?_, ?_⟩ <;>
    (simp only [repStep]
     split
     · split <;> simp [List.length_set]
     · simp)

theorem repStep_shape (trials : List (List ℚ)) (energies : List ℚ)
    (s : DEState) (j : ℕ) (hs : SameShape s) :
    SameShape (repStep trials energies s j) := by
  obtain ⟨h1, h2⟩ := hs
  obtain ⟨l1, l2, l3⟩ := repStep_len trials energies s j
  exact ⟨by rw [l1, l2, h1], by rw [l1, l3, h2]⟩

theorem repStep_align (cost : List ℚ → ℚ) (trials : List (List ℚ))
    (s : DEState) (j i : ℕ) (hs : SameShape s) (hj : j < trials.length)
    (ha : Aligned cost s i) :
    Aligned cost (repStep trials (trials.map cost) s j) i := by
  obtain ⟨h1, _⟩ := hs
  unfold Aligned at ha ⊢
  simp only [repStep]
  have he : (trials.map cost).getD j 0 = cost (trials.getD j []) := by
    rw [List.getD_eq_getElem?_getD, List.getD_eq_getElem?_getD,
      List.getElem?_map]
    simp [List.getElem?_eq_getElem hj]
  split
  · split
    all_goals
      by_cases hij : i = j
      · subst hij
        simp only
        rw [getD_set_self, getD_set_self]
        by_cases hl : i < s.population.length
        · rw [if_pos (h1 ▸ hl), if_pos hl, he]
        · rw [if_neg (h1 ▸ hl), if_neg hl]
          have e1 : s.popEnergy.getD i 0 = 0 := getD_of_len_le (by omega) 0
          have e2 : s.population.getD i [] = [] := getD_of_len_le (by omega) []
          rw [e1, e2] at ha
          exact ha
      · simp only
        rw [getD_set_ne _ hij, getD_set_ne _ hij]
        exact ha
  · exact ha

theorem repStep_gen_mono (trials : List (List ℚ)) (energies : List ℚ)
    (s : DEState) (j i : ℕ) :
    (s.genealogy.getD i []).length ≤
      ((repStep trials energies s j).genealogy.getD i []).length := by
  simp only [repStep]
  split
  · split
    all_goals
      by_cases hij : i = j
      · subst hij
        simp only
        rw [getD_set_self]
        by_cases hl : i < s.genealogy.length
        · rw [if_pos hl]
          simp
        · rw [if_neg hl]
          have e1 : s.genealogy.getD i [] = [] := getD_of_len_le (by omega) []
          rw [e1]
      · simp only
        rw [getD_set_ne _ hij]
  · simp

theorem repStep_grow (cost : List ℚ → ℚ) (trials : List (List ℚ))
    (s : DEState) (j i : ℕ) (hs : SameShape s) (hj : j < trials.length)
    (hg : (s.genealogy.getD i []).length <
      ((repStep trials (trials.map cost) s j).genealogy.getD i []).length) :
    Aligned cost (repStep trials (trials.map cost) s j) i := by
  obtain ⟨h1, h2⟩ := hs
  unfold Aligned
  have he : (trials.map cost).getD j 0 = cost (trials.getD j []) := by
    rw [List.getD_eq_getElem?_getD, List.getD_eq_getElem?_getD,
      List.getElem?_map]
    simp [List.getElem?_eq_getElem hj]
  simp only [repStep] at hg ⊢
  split at hg
  · rename_i hrep
    rw [if_pos hrep]
    by_cases hij : i = j
    · subst hij
      by_cases hl : i < s.genealogy.length
      · have hl1 : i < s.popEnergy.length := by omega
        have hl2 : i < s.population.length := by omega
        split
        all_goals
          simp only
          rw [getD_set_self, getD_set_self, if_pos hl1, if_pos hl2, he]
      · exfalso
        split at hg
        all_goals
          dsimp only at hg
          rw [getD_set_self, if_neg hl] at hg
          have e1 : s.genealogy.getD i [] = [] := getD_of_len_le (by omega) []
          rw [e1] at hg
          simp at hg
    · exfalso
      split at hg
      all_goals
        dsimp only at hg
        rw [getD_set_ne _ hij] at hg
        omega
  · omega

theorem foldl_rep_shape (trials : List (List ℚ)) (energies : List ℚ)
    (l : List ℕ) (s : DEState) (hs : SameShape s) :
    SameShape (l.foldl (repStep trials energies) s) := by
  induction l generalizing s with
  | nil => exact hs
  | cons j l ih => exact ih _ (repStep_shape trials energies s j hs)

theorem foldl_rep_align (cost : List ℚ → ℚ) (trials : List (List ℚ))
    (l : List ℕ) (s : DEState) (i : ℕ) (hs : SameShape s)
    (hl : ∀ j ∈ l, j < trials.length) (ha : Aligned cost s i) :
    Aligned cost (l.foldl (repStep trials (trials.map cost)) s) i := by
  induction l generalizing s with
  | nil => exact ha
  | cons j l ih =>
    exact ih _ (repStep_shape _ _ s j hs) (fun k hk => hl k (by simp [hk]))
      (repStep_align cost trials s j i hs (hl j (by simp)) ha)

theorem foldl_rep_grow (cost : List ℚ → ℚ) (trials : List (List ℚ))
    (l : List ℕ) (s : DEState) (i : ℕ) (hs : SameShape s)
    (hl : ∀ j ∈ l, j < trials.length)
    (hg : (s.genealogy.getD i []).length <
      ((l.foldl (repStep trials (trials.map cost)) s).genealogy.getD i []).length) :
    Aligned cost (l.foldl (repStep trials (trials.map cost)) s) i := by
  induction l generalizing s with
  | nil => exact absurd hg (by simp)
  | cons j l ih =>
    simp only [List.foldl_cons] at hg ⊢
    by_cases hg1 : (s.genealogy.getD i []).length <
        ((repStep trials (trials.map cost) s j).genealogy.getD i []).length
    · exact foldl_rep_align cost trials l _ i (repStep_shape _ _ s j hs)
        (fun k hk => hl k (by simp [hk]))
        (repStep_grow cost trials s j i hs (hl j (by simp)) hg1)
    · have heq := repStep_gen_mono trials (trials.map cost) s j i
      exact ih _ (repStep_shape _ _ s j hs) (fun k hk => hl k (by simp [hk]))
        (by omega)

/-! ## Trial-construction lemmas for the second solver -/

theorem buildTrialsAux_state (p : DEParams) (l : List ℕ)
    (st : DEState × List (List ℚ)) :
    ∃ ts, (buildTrialsAux p st l).1 = { st.1 with trialSolution := ts } := by
  induction l generalizing st with
  | nil => exact ⟨st.1.trialSolution, rfl⟩
  | cons i l ih =>
    obtain ⟨ts, hts⟩ := ih
      ({ st.1 with trialSolution := p.strategy st.1.population st.1.bestSolution i },
        st.2 ++ [p.strategy st.1.population st.1.bestSolution i])
    exact ⟨ts, hts⟩

theorem buildTrialsAux_trials (p : DEParams) (l : List ℕ)
    (st : DEState × List (List ℚ)) :
    (buildTrialsAux p st l).2 =
      st.2 ++ l.map (p.strategy st.1.population st.1.bestSolution) := by
  induction l generalizing st with
  | nil => simp [buildTrialsAux]
  | cons i l ih =>
    simp only [buildTrialsAux, List.foldl_cons] at ih ⊢
    rw [ih]
    simp

theorem buildTrials_state (p : DEParams) (s : DEState) :
    ∃ ts, (buildTrials p s).1 = { s with trialSolution := ts } :=
  buildTrialsAux_state p (List.range p.NP) (s, [])

theorem buildTrials_trials (p : DEParams) (s : DEState) :
    (buildTrials p s).2 =
      (List.range p.NP).map (p.strategy s.population s.bestSolution) := by
  simpa [buildTrials] using buildTrialsAux_trials p (List.range p.NP) (s, [])

theorem buildTrials_len (p : DEParams) (s : DEState) :
    (buildTrials p s).2.length = p.NP := by
  rw [buildTrials_trials]
  simp

theorem solverTwo_as_applyReps (p : DEParams) (s : DEState) :
    ∃ ts, solverTwoGen p s =
      (List.range p.NP).foldl
        (repStep (buildTrials p s).2 ((buildTrials p s).2.map p.cost))
        { s with trialSolution := ts, fcalls := s.fcalls + p.NP } := by
  obtain ⟨ts, hbt⟩ := buildTrials_state p s
  refine ⟨ts, ?_⟩
  simp only [solverTwoGen, applyReps]
  rw [hbt, buildTrials_len]

/-! ## Claim theorems: solver claims -/

/-- C1 (code evaluation at the failing input): in the concrete
`DifferentialEvolutionSolver2` run `exC1p`/`exC1s` (two slots, trials `[1]`
and `[9]`), slot 0 accepts the trial `[1]` — it becomes `population[0]` —
yet `genealogy[0]` records `[[9]]`, the trial built for the *last* slot
(line 365 appends the shared `trialSolution` buffer instead of
`trialPop[candidate]`).  So the appended vector is not the accepted
replacement vector, contradicting the claim and the solver's own
"all changes are logged" contract. -/
theorem C1_genealogy_records_stale_trial :
    (deSolve solverTwoGen exC1p exC1s).1.population.getD 0 [] = [1] ∧
    (deSolve solverTwoGen exC1p exC1s).1.genealogy.getD 0 [] = [[9]] ∧
    (deSolve solverTwoGen exC1p exC1s).1.genealogy.getD 0 [] ≠
      [(deSolve solverTwoGen exC1p exC1s).1.population.getD 0 []] := by
  decide

/-- C2 counterexample: in the sequential run `exC2p`/`exC2s` with
`maxfun = 1` and `NP = 2`, after candidate 0 of generation 0 the counter
already satisfies `fcalls >= maxfun`, yet candidate 1 is still evaluated
(final `fcalls = 2`), and in generation 1 — where the check does fire — the
callback and energy-history append are skipped (`callbackCount = 1`,
`energyHistory.length = 1`) because the `break` exits the generation loop
entirely.  This refutes the claim that the check is per candidate and that
the callback of the breaking generation still runs. -/
theorem C2_maxfun_check_counterexample :
    exC2p.maxfun = 1 ∧
    (deSolve solverOneGen exC2p exC2s).1.fcalls = 2 ∧
    (deSolve solverOneGen exC2p exC2s).1.callbackCount = 1 ∧
    (deSolve solverOneGen exC2p exC2s).1.energyHistory.length = 1 ∧
    (deSolve solverOneGen exC2p exC2s).1.cause = some .hitMaxfun := by
  decide

/-- C2 amended: in the sequential solver the `fcalls >= max_fun` check runs
once per generation, after the step monitor and before the candidate loop,
and when it fires the solver leaves the generation loop entirely: no
candidate of that generation is processed, no energy-history entry is
appended, and the user callback and termination check of that generation do
not run. -/
theorem C2_maxfun_check_amended (p : DEParams) (g r : ℕ) (s : DEState)
    (h : p.maxfun ≤ s.fcalls) :
    solveLoop solverOneGen p g (r + 1) s =
      ({ recordStep s with cause := some .hitMaxfun }, g) ∧
    (solveLoop solverOneGen p g (r + 1) s).1.population = s.population ∧
    (solveLoop solverOneGen p g (r + 1) s).1.popEnergy = s.popEnergy ∧
    (solveLoop solverOneGen p g (r + 1) s).1.energyHistory = s.energyHistory ∧
    (solveLoop solverOneGen p g (r + 1) s).1.callbackCount = s.callbackCount ∧
    (solveLoop solverOneGen p g (r + 1) s).1.fcalls = s.fcalls := by
  have key : solveLoop solverOneGen p g (r + 1) s =
      ({ recordStep s with cause := some .hitMaxfun }, g) := by
    simp only [solveLoop]
    rw [if_pos (show p.maxfun ≤ (recordStep s).fcalls from h)]
  refine ⟨key, ?_, ?_, ?_, ?_, ?_⟩ <;> (rw [key]; rfl)

/-- Witness for the amended C2 theorem at a concrete state with the counter
at its limit. -/
theorem C2_maxfun_check_witness :
    exC2p.maxfun ≤ (deSolve solverOneGen exC2p exC2s).1.fcalls ∧
    solveLoop solverOneGen exC2p 5 1 (deSolve solverOneGen exC2p exC2s).1 =
      ({ recordStep (deSolve solverOneGen exC2p exC2s).1 with
          cause := some .hitMaxfun }, 5) :=
  ⟨by decide, (C2_maxfun_check_amended exC2p 5 0 _ (by decide)).1⟩

/-- C3: in `DifferentialEvolutionSolver2`, the trial-construction phase
leaves population, per-member energies, best-so-far and genealogy untouched
(it only rewrites the shared `trialSolution` buffer); every one of the `NP`
trials is a function of the population and best solution as they stood at
the start of the generation; and the whole generation is exactly: build the
trials, evaluate them all (`fcalls` advancing by `NP`), then apply the
replacement loop.  Replacements therefore only happen after all `NP`
evaluations have completed. -/
theorem C3_invariant_generation (p : DEParams) (s : DEState) :
    (buildTrials p s).1.population = s.population ∧
    (buildTrials p s).1.popEnergy = s.popEnergy ∧
    (buildTrials p s).1.bestSolution = s.bestSolution ∧
    (buildTrials p s).1.bestEnergy = s.bestEnergy ∧
    (buildTrials p s).1.genealogy = s.genealogy ∧
    (buildTrials p s).2 =
      (List.range p.NP).map (p.strategy s.population s.bestSolution) ∧
    solverTwoGen p s =
      applyReps (buildTrials p s).2 ((buildTrials p s).2.map p.cost)
        { (buildTrials p s).1 with fcalls := s.fcalls + p.NP }
        (List.range p.NP) := by
  obtain ⟨ts, hbt⟩ := buildTrials_state p s
  refine ⟨by rw [hbt], by rw [hbt], by rw [hbt], by rw [hbt], by rw [hbt],
    buildTrials_trials p s, ?_⟩
  simp only [solverTwoGen, applyReps]
  rw [buildTrials_len, hbt]

/-- C4 amended: for both solvers, alignment `energies[i] = cost(pop[i])` is
preserved by a generation step, and is (re)established for every slot that
is replaced during the step (visible as growth of its genealogy record).
Slots never replaced keep their initialization energies, which need not be
aligned — see the counterexample. -/
theorem C4_alignment_amended (p : DEParams) (s : DEState) (i : ℕ)
    (hs : SameShape s) :
    (Aligned p.cost s i → Aligned p.cost (solverOneGen p s) i) ∧
    ((s.genealogy.getD i []).length <
        ((solverOneGen p s).genealogy.getD i []).length →
      Aligned p.cost (solverOneGen p s) i) ∧
    (Aligned p.cost s i → Aligned p.cost (solverTwoGen p s) i) ∧
    ((s.genealogy.getD i []).length <
        ((solverTwoGen p s).genealogy.getD i []).length →
      Aligned p.cost (solverTwoGen p s) i) := by
  obtain ⟨ts, h2⟩ := solverTwo_as_applyReps p s
  have hs' : SameShape { s with trialSolution := ts, fcalls := s.fcalls + p.NP } := hs
  have hj : ∀ j ∈ List.range p.NP, j < (buildTrials p s).2.length := by
    intro j hjm
    rw [buildTrials_len]
    simpa using hjm
  refine ⟨fun ha => foldl_candidate_align p _ s i hs ha,
    fun hg => foldl_candidate_grow p _ s i hs hg,
    fun ha => ?_, fun hg => ?_⟩
  · rw [h2]
    exact foldl_rep_align p.cost _ _ _ i hs' hj ha
  · rw [h2] at hg ⊢
    exact foldl_rep_grow p.cost _ _ _ i hs' hj hg

/-- Witness for the amended C4 theorem: a concrete aligned state stays
aligned through one generation of each solver. -/
theorem C4_alignment_witness :
    SameShape exC4ws ∧ Aligned exC4wp.cost exC4ws 0 ∧
    Aligned exC4wp.cost (solverOneGen exC4wp exC4ws) 0 ∧
    Aligned exC4wp.cost (solverTwoGen exC4wp exC4ws) 0 :=
  ⟨by decide, by decide,
    (C4_alignment_amended exC4wp exC4ws 0 (by decide)).1 (by decide),
    (C4_alignment_amended exC4wp exC4ws 0 (by decide)).2.2.1 (by decide)⟩

/-- C4 counterexample: in the sequential run `exC4p`/`exC4s` the cost is
everywhere `10 ^ 21`, above the initialization energy `bigE = 10 ^ 20`, so
slot 0 is never replaced (its genealogy stays empty) while a full generation
completes (`energyHistory.length = 1`); afterwards `energies[0] = bigE`
differs from `cost(population[0]) = 10 ^ 21`, refuting the claim for
never-replaced slots. -/
theorem C4_alignment_counterexample :
    (deSolve solverOneGen exC4p exC4s).1.energyHistory.length = 1 ∧
    (deSolve solverOneGen exC4p exC4s).1.genealogy.getD 0 [] = [] ∧
    ¬ Aligned exC4p.cost (deSolve solverOneGen exC4p exC4s).1 0 := by
  decide

/-- C9 counterexample: in the `diffev` run `exC9` the cost is identically
zero so the `VTR` termination predicate fires on generation 0 (the run's
recorded stop cause is `terminated`), but with `maxiter = 1` the step count
reaches the iteration limit in the same generation and `diffev` reports
`warnflag = 2`, not `0`, refuting "warnflag = 0 exactly when the run
terminated via the predicate". -/
theorem C9_warnflag_counterexample :
    (diffevRun exC9).1.cause = some .terminated ∧
    diffev exC9 true false =
      .full { x := [0], fopt := 0, iter := 1, fcalls := 2, warnflag := 2 } := by
  decide

/-- C9 amended: `diffev` returns the best vector alone by default, the
best vector with the step log when `retall` is set, and the tuple
`(x, fopt, iter, fcalls, warnflag)` when `full_output` is set; `warnflag`
is computed from the final counters alone — `1` iff `fcalls >= max_fun`,
else `2` iff the step count reached `max_iter`, else `0` — so a run stopped
by the termination predicate gets `warnflag = 0` only when neither counter
reached its limit. -/
theorem C9_warnflag_amended (a : DiffevArgs) :
    diffev a false false = .bare (diffevRun a).1.bestSolution ∧
    diffev a false true =
      .withAll (diffevRun a).1.bestSolution (diffevRun a).1.stepLog ∧
    diffev a true false =
      .full { x := (diffevRun a).1.bestSolution
              fopt := (diffevRun a).1.bestEnergy
              iter := (diffevRun a).1.stepLog.length
              fcalls := (diffevRun a).1.fcalls
              warnflag := diffevWarnflag a } ∧
    diffevWarnflag a =
      (if (diffevParams a).maxfun ≤ (diffevRun a).1.fcalls then 1
       else if (diffevParams a).maxiter ≤ (diffevRun a).1.stepLog.length then 2
       else 0) ∧
    ((diffevRun a).1.cause = some .terminated →
      (diffevRun a).1.fcalls < (diffevParams a).maxfun →
      (diffevRun a).1.stepLog.length < (diffevParams a).maxiter →
      diffevWarnflag a = 0) := by
  refine ⟨rfl, rfl, rfl, rfl, ?_⟩
  intro _ h1 h2
  simp only [diffevWarnflag]
  rw [if_neg (by omega), if_neg (by omega)]

/-- Witness for the amended C9 theorem: a predicate-terminated run with both
counters below their limits indeed reports `warnflag = 0`. -/
theorem C9_warnflag_witness :
    (diffevRun exC9w).1.cause = some .terminated ∧
    (diffevRun exC9w).1.fcalls < (diffevParams exC9w).maxfun ∧
    (diffevRun exC9w).1.stepLog.length < (diffevParams exC9w).maxiter ∧
    diffevWarnflag exC9w = 0 :=
  ⟨by decide, by decide, by decide,
    (C9_warnflag_amended exC9w).2.2.2.2 (by decide) (by decide) (by decide)⟩

/-! ## Claim theorems: detector mask validation (C7) -/

/-- C7: `collapse_at` and `collapse_as` validate the mask before looking at
the monitor history (the error is the same for every history): a mask of
invalid container type raises `TypeError`; a `collapse_at` set mask may
contain only bare indices — any element with a length raises `ValueError` —
while a `collapse_as` set mask admits bare ints and 2-element tuples,
rejecting other tuple lengths with `ValueError`; valid masks never raise;
and a bare int `k` in a `collapse_as` mask is widened to exclude every pair
touching `k` from the result. -/
theorem C7_mask_validation (h : List (List ℚ)) (tgt : TargetArg)
    (tols : List ℚ) (n : ℕ) (elems : List MaskElem) (h2 : List (List ℚ))
    (offset : Bool) (tol : ℚ) (n2 : ℕ) :
    collapse_at h tgt tols n .maOther = .error .typeErr ∧
    collapse_as h2 offset tol n2 .maOther = .error .typeErr ∧
    ((∃ l, MaskElem.mTup l ∈ elems) →
      collapse_at h tgt tols n (.maSet elems) = .error .valueErr) ∧
    ((∃ l, MaskElem.mTup l ∈ elems ∧ l.length ≠ 2) →
      collapse_as h2 offset tol n2 (.maSet elems) = .error .valueErr) ∧
    ((∀ e ∈ elems, ∃ k, e = MaskElem.mInt k) →
      ∃ out, collapse_at h tgt tols n (.maSet elems) = .ok out) ∧
    ((∀ e ∈ elems, (∃ k, e = MaskElem.mInt k) ∨ ∃ a b, e = MaskElem.mTup [a, b]) →
      ∃ out, collapse_as h2 offset tol n2 (.maSet elems) = .ok out) ∧
    (∀ k out, MaskElem.mInt k ∈ elems →
      collapse_as h2 offset tol n2 (.maSet elems) = .ok out →
      ∀ pr ∈ out, pr.1 ≠ k ∧ pr.2 ≠ k) := by
  refine ⟨rfl, rfl, ?_, ?_, ?_, ?_, ?_⟩
  · rintro ⟨l, hl⟩
    simp only [collapse_at]
    rw [if_pos (List.any_eq_true.mpr ⟨_, hl, rfl⟩)]
  · rintro ⟨l, hl, hlen⟩
    simp only [collapse_as]
    rw [if_pos (List.any_eq_true.mpr ⟨_, hl, by simpa [badAsElem] using hlen⟩)]
  · intro hall
    simp only [collapse_at]
    rw [if_neg]
    · exact ⟨_, rfl⟩
    · simp only [List.any_eq_true, not_exists, not_and]
      rintro e he
      obtain ⟨k, rfl⟩ := hall e he
      simp [hasLen]
  · intro hall
    simp only [collapse_as]
    rw [if_neg]
    · exact ⟨_, rfl⟩
    · simp only [List.any_eq_true, not_exists, not_and]
      rintro e he
      rcases hall e he with ⟨k, rfl⟩ | ⟨a, b, rfl⟩ <;> simp [badAsElem]
  · intro k out hk hout pr hpr
    simp only [collapse_as] at hout
    split at hout
    · simp at hout
    · simp only [Except.ok.injEq] at hout
      subst hout
      simp only [List.mem_toFinset, List.mem_filter] at hpr
      have hsel := hpr.2
      simp only [Bool.and_eq_true, Bool.not_eq_true'] at hsel
      have : selAs elems pr = false := hsel.2
      simp only [selAs, Bool.or_eq_false_iff, decide_eq_false_iff_not] at this
      exact ⟨fun he => this.1.2 (by rw [he]; exact hk),
        fun he => this.2 (by rw [he]; exact hk)⟩

/-! ## Dict/zip helper lemmas for the detector claims -/

theorem zip_fst_snd {α β : Type} (l : List (α × β)) :
    (l.map Prod.fst).zip (l.map Prod.snd) = l := by
  induction l with
  | nil => rfl
  | cons a l ih => simp [ih]

theorem mem_zip_append {α β : Type} {c : α × β} {l1 l3 : List α} {l2 l4 : List β}
    (h : c ∈ l1.zip l2) : c ∈ (l1 ++ l3).zip (l2 ++ l4) := by
  induction l1 generalizing l2 with
  | nil => simp at h
  | cons a l1 ih =>
    cases l2 with
    | nil => simp at h
    | cons b l2 =>
      rcases List.mem_cons.mp h with rfl | hm
      · simp
      · simp only [List.cons_append, List.zip_cons_cons]
        exact List.mem_cons_of_mem _ (ih hm)

theorem dget_eq_of_mem {β : Type} [DecidableEq β] (r : List (ℕ × Finset β))
    (m : ℕ) (t : Finset β) (hnd : (r.map Prod.fst).Nodup) (hm : (m, t) ∈ r) :
    dget r m = t := by
  induction r with
  | nil => simp at hm
  | cons e r ih =>
    simp only [List.map_cons, List.nodup_cons] at hnd
    rcases List.mem_cons.mp hm with he | hm2
    · rw [← he]
      unfold dget
      rw [List.find?_cons_of_pos _ (by simp)]
    · have hne : ¬ e.1 = m := by
        intro hh
        exact hnd.1 (hh ▸ List.mem_map_of_mem Prod.fst hm2)
      unfold dget
      rw [List.find?_cons_of_neg _ (by simpa using hne)]
      exact ih hnd.2 hm2

theorem dget_not_mem {β : Type} [DecidableEq β] (l : List (ℕ × Finset β))
    (m : ℕ) (h : m ∉ l.map Prod.fst) : dget l m = ∅ := by
  induction l with
  | nil => rfl
  | cons e l ih =>
    simp only [List.map_cons, List.mem_cons, not_or] at h
    unfold dget
    rw [List.find?_cons_of_neg _ (by simp; exact fun hh => h.1 hh.symm)]
    exact ih h.2

/-! ## Claim theorem: mask subtraction disjointness (C6) -/

/-- C6: for each detector and each result shape, feeding a prior result `r`
back as the mask yields a result disjoint from `r` (same-shape
intersection): sets of indices for `collapse_at`, sets of pairs for
`collapse_as`, and — for `collapse_weight`/`collapse_position` — the pair
set, the per-measure dict (value-wise intersection at every common key) and
the where format (no common cell). -/
theorem C6_mask_disjoint :
    (∀ (h : List (List ℚ)) (tgt : TargetArg) (tols : List ℚ) (n : ℕ)
        (r : List ℕ) (out : Finset ℕ),
      collapse_at h tgt tols n (.maSet (r.map MaskElem.mInt)) = .ok out →
      out ∩ r.toFinset = ∅) ∧
    (∀ (h : List (List ℚ)) (offset : Bool) (tol : ℚ) (n : ℕ)
        (r : List (ℕ × ℕ)) (out : Finset (ℕ × ℕ)),
      collapse_as h offset tol n
          (.maSet (r.map (fun pr => MaskElem.mTup [pr.1, pr.2]))) = .ok out →
      out ∩ r.toFinset = ∅) ∧
    (∀ (h : List (List (List ℚ))) (tol : ℚ) (n : ℕ) (r : List (ℕ × ℕ))
        (out : Finset (ℕ × ℕ)),
      collapse_weight h tol n (.wSet r) = .rwSet out → out ∩ r.toFinset = ∅) ∧
    (∀ (h : List (List (List ℚ))) (tol : ℚ) (n : ℕ) (r d : List (ℕ × Finset ℕ)),
      (r.map Prod.fst).Nodup →
      collapse_weight h tol n (.wDict r) = .rwDict d →
      ∀ m s t, (m, s) ∈ d → (m, t) ∈ r → s ∩ t = ∅) ∧
    (∀ (h : List (List (List ℚ))) (tol : ℚ) (n : ℕ) (ms ws oms ows : List ℕ),
      collapse_weight h tol n (.wWhere ms ws) = .rwWhere oms ows →
      (oms.zip ows).Disjoint (ms.zip ws)) ∧
    (∀ (h : List (List (List ℚ))) (tol : ℚ) (n : ℕ)
        (r : List (ℕ × (ℕ × ℕ))) (out : Finset (ℕ × (ℕ × ℕ))),
      collapse_position h tol n (.pSet r) = .rpSet out → out ∩ r.toFinset = ∅) ∧
    (∀ (h : List (List (List ℚ))) (tol : ℚ) (n : ℕ)
        (r d : List (ℕ × Finset (ℕ × ℕ))),
      (r.map Prod.fst).Nodup →
      collapse_position h tol n (.pDict r) = .rpDict d →
      ∀ m s t, (m, s) ∈ d → (m, t) ∈ r → s ∩ t = ∅) ∧
    (∀ (h : List (List (List ℚ))) (tol : ℚ) (n : ℕ) (ms : List ℕ)
        (prs : List (ℕ × ℕ)) (oms : List ℕ) (oprs : List (ℕ × ℕ)),
      collapse_position h tol n (.pWhere ms prs) = .rpWhere oms oprs →
      (oms.zip oprs).Disjoint (ms.zip prs)) := by
  refine ⟨?_, ?_, ?_, ?_, ?_, ?_, ?_, ?_⟩
  · intro h tgt tols n r out hout
    simp only [collapse_at] at hout
    rw [if_neg (by simp [hasLen])] at hout
    simp only [Except.ok.injEq] at hout
    subst hout
    rw [Finset.eq_empty_iff_forall_not_mem]
    intro j hj
    rw [Finset.mem_inter] at hj
    obtain ⟨hjo, hjr⟩ := hj
    simp only [List.mem_toFinset, List.mem_filter, Bool.and_eq_true,
      Bool.not_eq_true', decide_eq_false_iff_not] at hjo
    exact hjo.2.2 (List.mem_map_of_mem _ (List.mem_toFinset.mp hjr))
  · intro h offset tol n r out hout
    simp only [collapse_as] at hout
    rw [if_neg (by
      simp only [List.any_eq_true, List.mem_map, not_exists, not_and]
      rintro x hex hbad
      obtain ⟨a, _, rfl⟩ := hex
      simp [badAsElem] at hbad)] at hout
    simp only [Except.ok.injEq] at hout
    subst hout
    rw [Finset.eq_empty_iff_forall_not_mem]
    intro pr hpr
    rw [Finset.mem_inter] at hpr
    obtain ⟨hpo, hprr⟩ := hpr
    simp only [List.mem_toFinset, List.mem_filter, Bool.and_eq_true,
      Bool.not_eq_true'] at hpo
    have hsel := hpo.2.2
    simp only [selAs, Bool.or_eq_false_iff, decide_eq_false_iff_not] at hsel
    exact hsel.1.1.1
      (List.mem_map.mpr ⟨pr, List.mem_toFinset.mp hprr, rfl⟩)
  · intro h tol n r out hout
    simp only [collapse_weight, ResultW.rwSet.injEq] at hout
    subst hout
    exact Finset.sdiff_inter_self _ _
  · intro h tol n r d hnd hout m s t hmd hmr
    simp only [collapse_weight, ResultW.rwDict.injEq] at hout
    subst hout
    simp only [subWDict, List.mem_filter, List.mem_map] at hmd
    obtain ⟨⟨e, hed, hee⟩, _⟩ := hmd
    have hs : s = e.2 \ dget r m := by
      have h1 : e.1 = m := congrArg Prod.fst hee
      have h2 : e.2 \ dget r e.1 = s := congrArg Prod.snd hee
      rw [← h2, h1]
    rw [hs, dget_eq_of_mem r m t hnd hmr]
    exact Finset.sdiff_inter_self _ _
  · intro h tol n ms ws oms ows hout
    simp only [collapse_weight, ResultW.rwWhere.injEq] at hout
    obtain ⟨h1, h2⟩ := hout
    rw [← h1, ← h2, zip_fst_snd]
    intro c hc hcm
    simp only [List.mem_filter, Bool.not_eq_true', decide_eq_false_iff_not] at hc
    exact hc.2 hcm
  · intro h tol n r out hout
    simp only [collapse_position, ResultP.rpSet.injEq] at hout
    subst hout
    rw [Finset.eq_empty_iff_forall_not_mem]
    intro c hc
    rw [Finset.mem_inter] at hc
    obtain ⟨hco, hcr⟩ := hc
    have hsub := Finset.mem_of_subset Finset.sdiff_subset hco
    rw [Finset.mem_sdiff] at hsub
    exact hsub.2 hcr
  · intro h tol n r d hnd hout m s t hmd hmr
    simp only [collapse_position, ResultP.rpDict.injEq] at hout
    subst hout
    simp only [List.mem_filter, List.mem_map] at hmd
    obtain ⟨⟨e, hed, hee⟩, _⟩ := hmd
    have hs : s = e.2 \ symmClose (dget r m) := by
      have h1 : e.1 = m := congrArg Prod.fst hee
      have h2 : e.2 \ symmClose (dget r e.1) = s := congrArg Prod.snd hee
      rw [← h2, h1]
    rw [hs, dget_eq_of_mem r m t hnd hmr]
    rw [Finset.eq_empty_iff_forall_not_mem]
    intro c hc
    rw [Finset.mem_inter] at hc
    obtain ⟨hcs, hct⟩ := hc
    rw [Finset.mem_sdiff] at hcs
    exact hcs.2 (Finset.mem_union_left _ hct)
  · intro h tol n ms prs oms oprs hout
    simp only [collapse_position, ResultP.rpWhere.injEq] at hout
    obtain ⟨h1, h2⟩ := hout
    rw [← h1, ← h2, zip_fst_snd]
    intro c hc hcm
    simp only [List.mem_filter, Bool.not_eq_true', decide_eq_false_iff_not] at hc
    exact hc.2 (mem_zip_append hcm)

/-! ## Monotonicity helper lemmas (C8) -/

theorem forall2_le_exists {l1 l2 : List ℚ} (h : List.Forall₂ (· ≤ ·) l1 l2)
    {t : ℚ} (ht : t ∈ l1) : ∃ u ∈ l2, t ≤ u := by
  induction h with
  | nil => simp at ht
  | @cons a b l1 l2 hab _ ih =>
    rcases List.mem_cons.mp ht with rfl | hm
    · exact ⟨b, List.mem_cons_self _ _, hab⟩
    · obtain ⟨u, hu, hle⟩ := ih hm
      exact ⟨u, List.mem_cons_of_mem _ hu, hle⟩

theorem tolOK_mono {t1 t2 : List ℚ} (h : List.Forall₂ (· ≤ ·) t1 t2) {c : ℚ}
    (hc : tolOK t1 c = true) : tolOK t2 c = true := by
  simp only [tolOK, List.any_eq_true, decide_eq_true_eq] at hc ⊢
  obtain ⟨t, ht, hct⟩ := hc
  obtain ⟨u, hu, htu⟩ := forall2_le_exists h ht
  exact ⟨u, hu, le_trans hct htu⟩

theorem filter_sublist_mono {α : Type} (l : List α) (p q : α → Bool)
    (h : ∀ a, p a = true → q a = true) :
    (l.filter p).Sublist (l.filter q) := by
  induction l with
  | nil => simp
  | cons a l ih =>
    by_cases hp : p a = true
    · rw [List.filter_cons_of_pos hp, List.filter_cons_of_pos (h a hp)]
      exact ih.cons₂ a
    · rw [List.filter_cons_of_neg (by simpa using hp)]
      by_cases hq : q a = true
      · rw [List.filter_cons_of_pos hq]
        exact ih.cons a
      · rw [List.filter_cons_of_neg (by simpa using hq)]
        exact ih

theorem flatMap_sublist {α β : Type} (l : List α) (f g : α → List β)
    (h : ∀ a, (f a).Sublist (g a)) : (l.flatMap f).Sublist (l.flatMap g) := by
  induction l with
  | nil => simp
  | cons a l ih =>
    simp only [List.flatMap_cons]
    exact List.Sublist.append (h a) ih

theorem wcells_sublist (win : List (List (List ℚ))) {t1 t2 : ℚ} (h : t1 ≤ t2) :
    (wcells win t1).Sublist (wcells win t2) := by
  unfold wcells
  apply flatMap_sublist
  intro m
  apply List.Sublist.map
  apply filter_sublist_mono
  intro w hw
  simp only [decide_eq_true_eq] at hw ⊢
  exact le_trans hw h

theorem pcells_sublist (win : List (List (List ℚ))) {t1 t2 : ℚ} (h : t1 ≤ t2) :
    (pcells win t1).Sublist (pcells win t2) := by
  unfold pcells
  apply flatMap_sublist
  intro m
  apply List.Sublist.map
  apply filter_sublist_mono
  intro pr hpr
  simp only [decide_eq_true_eq] at hpr ⊢
  exact le_trans hpr h

theorem find?_key_map {β : Type} (keys : List ℕ) (f : ℕ → β) (m : ℕ) :
    (keys.map (fun k => (k, f k))).find? (fun e => decide (e.1 = m)) =
      if m ∈ keys then some (m, f m) else none := by
  induction keys with
  | nil => simp
  | cons k ks ih =>
    by_cases hk : k = m
    · subst hk
      simp only [List.map_cons]
      rw [List.find?_cons_of_pos _ (by simp)]
      simp
    · simp only [List.map_cons]
      rw [List.find?_cons_of_neg _ (by simpa using hk)]
      rw [ih]
      by_cases hmk : m ∈ ks
      · rw [if_pos hmk, if_pos (List.mem_cons_of_mem _ hmk)]
      · rw [if_neg hmk, if_neg (by
          intro hmem
          rcases List.mem_cons.mp hmem with rfl | hh
          · exact hk rfl
          · exact hmk hh)]

theorem dictOf_keys {β : Type} [DecidableEq β] (cells : List (ℕ × β)) :
    (dictOf cells).map Prod.fst = (cells.map Prod.fst).dedup := by
  unfold dictOf
  rw [List.map_map]
  simp [Function.comp_def]

theorem dget_dictOf {β : Type} [DecidableEq β] (cells : List (ℕ × β)) (m : ℕ) :
    dget (dictOf cells) m =
      ((cells.filter (fun c => decide (c.1 = m))).map Prod.snd).toFinset := by
  unfold dictOf dget
  rw [find?_key_map]
  by_cases hm : m ∈ (cells.map Prod.fst).dedup
  · rw [if_pos hm]
  · rw [if_neg hm]
    rw [List.mem_dedup] at hm
    have hnil : cells.filter (fun c => decide (c.1 = m)) = [] := by
      rw [List.filter_eq_nil_iff]
      intro c hc
      simp only [decide_eq_true_eq]
      exact fun hcm => hm (List.mem_map.mpr ⟨c, hc, hcm⟩)
    simp [hnil]

theorem subWDict_keys (x r : List (ℕ × Finset ℕ)) :
    ∀ m, m ∈ (subWDict x r).map Prod.fst → m ∈ x.map Prod.fst := by
  intro m hm
  obtain ⟨e, he, rfl⟩ := List.mem_map.mp hm
  have he2 := List.mem_of_mem_filter he
  obtain ⟨e2, he3, rfl⟩ := List.mem_map.mp he2
  exact List.mem_map.mpr ⟨e2, he3, rfl⟩

theorem dget_subWDict (x r : List (ℕ × Finset ℕ)) (m : ℕ)
    (hnd : (x.map Prod.fst).Nodup) :
    dget (subWDict x r) m = dget x m \ dget r m := by
  induction x with
  | nil => simp [subWDict, dget]
  | cons e x ih =>
    simp only [List.map_cons, List.nodup_cons] at hnd
    have hrec : subWDict (e :: x) r =
        ((e.1, e.2 \ dget r e.1) :: (x.map (fun q => (q.1, q.2 \ dget r q.1)))).filter
          (fun q => decide (q.2 ≠ ∅)) := rfl
    by_cases hem : e.1 = m
    · have hxm : dget x m = ∅ := dget_not_mem x m (hem ▸ hnd.1)
      have hrhs : dget (e :: x) m = e.2 := by
        unfold dget
        rw [List.find?_cons_of_pos _ (by simpa using hem)]
      by_cases hne : e.2 \ dget r e.1 = ∅
      · rw [hrec, List.filter_cons_of_neg (by simpa using hne)]
        have hlhs : dget ((x.map (fun q => (q.1, q.2 \ dget r q.1))).filter
            (fun q => decide (q.2 ≠ ∅))) m = ∅ := by
          apply dget_not_mem
          intro hmem
          exact (hem ▸ hnd.1) (subWDict_keys x r m hmem)
        rw [hlhs, hrhs, ← hem, hne]
      · rw [hrec, List.filter_cons_of_pos (by simpa using hne)]
        have hlhs : dget ((e.1, e.2 \ dget r e.1) ::
            (x.map (fun q => (q.1, q.2 \ dget r q.1))).filter
              (fun q => decide (q.2 ≠ ∅))) m = e.2 \ dget r e.1 := by
          unfold dget
          rw [List.find?_cons_of_pos _ (by simpa using hem)]
        rw [hlhs, hrhs, hem]
    · have hrhs : dget (e :: x) m = dget x m := by
        unfold dget
        rw [List.find?_cons_of_neg _ (by simpa using hem)]
      by_cases hne : e.2 \ dget r e.1 = ∅
      · rw [hrec, List.filter_cons_of_neg (by simpa using hne), hrhs]
        exact ih hnd.2
      · rw [hrec, List.filter_cons_of_pos (by simpa using hne), hrhs]
        have hlhs : dget ((e.1, e.2 \ dget r e.1) ::
            (x.map (fun q => (q.1, q.2 \ dget r q.1))).filter
              (fun q => decide (q.2 ≠ ∅))) m =
            dget ((x.map (fun q => (q.1, q.2 \ dget r q.1))).filter
              (fun q => decide (q.2 ≠ ∅))) m := by
          unfold dget
          rw [List.find?_cons_of_neg _ (by simpa using hem)]
        rw [hlhs]
        exact ih hnd.2

theorem submap_keys {β : Type} [DecidableEq β] (x : List (ℕ × Finset β))
    (g : ℕ → Finset β) :
    ∀ m, m ∈ ((x.map (fun q => (q.1, q.2 \ g q.1))).filter
        (fun q => decide (q.2 ≠ ∅))).map Prod.fst →
      m ∈ x.map Prod.fst := by
  intro m hm
  obtain ⟨e, he, rfl⟩ := List.mem_map.mp hm
  have he2 := List.mem_of_mem_filter he
  obtain ⟨e2, he3, rfl⟩ := List.mem_map.mp he2
  exact List.mem_map.mpr ⟨e2, he3, rfl⟩

theorem dget_submap {β : Type} [DecidableEq β] (x : List (ℕ × Finset β))
    (g : ℕ → Finset β) (m : ℕ) (hnd : (x.map Prod.fst).Nodup) :
    dget ((x.map (fun q => (q.1, q.2 \ g q.1))).filter
        (fun q => decide (q.2 ≠ ∅))) m = dget x m \ g m := by
  induction x with
  | nil => simp [dget]
  | cons e x ih =>
    simp only [List.map_cons, List.nodup_cons] at hnd
    simp only [List.map_cons]
    by_cases hem : e.1 = m
    · have hxm : dget x m = ∅ := dget_not_mem x m (hem ▸ hnd.1)
      have hrhs : dget (e :: x) m = e.2 := by
        unfold dget
        rw [List.find?_cons_of_pos _ (by simpa using hem)]
      by_cases hne : e.2 \ g e.1 = ∅
      · rw [List.filter_cons_of_neg (by simpa using hne)]
        have hlhs : dget ((x.map (fun q => (q.1, q.2 \ g q.1))).filter
            (fun q => decide (q.2 ≠ ∅))) m = ∅ := by
          apply dget_not_mem
          intro hmem
          exact (hem ▸ hnd.1) (submap_keys x g m hmem)
        rw [hlhs, hrhs, ← hem, hne]
      · rw [List.filter_cons_of_pos (by simpa using hne)]
        have hlhs : dget ((e.1, e.2 \ g e.1) ::
            (x.map (fun q => (q.1, q.2 \ g q.1))).filter
              (fun q => decide (q.2 ≠ ∅))) m = e.2 \ g e.1 := by
          unfold dget
          rw [List.find?_cons_of_pos _ (by simpa using hem)]
        rw [hlhs, hrhs, hem]
    · have hrhs : dget (e :: x) m = dget x m := by
        unfold dget
        rw [List.find?_cons_of_neg _ (by simpa using hem)]
      by_cases hne : e.2 \ g e.1 = ∅
      · rw [List.filter_cons_of_neg (by simpa using hne), hrhs]
        exact ih hnd.2
      · rw [List.filter_cons_of_pos (by simpa using hne), hrhs]
        have hlhs : dget ((e.1, e.2 \ g e.1) ::
            (x.map (fun q => (q.1, q.2 \ g q.1))).filter
              (fun q => decide (q.2 ≠ ∅))) m =
            dget ((x.map (fun q => (q.1, q.2 \ g q.1))).filter
              (fun q => decide (q.2 ≠ ∅))) m := by
          unfold dget
          rw [List.find?_cons_of_neg _ (by simpa using hem)]
        rw [hlhs]
        exact ih hnd.2

theorem dget_dictOf_mono {β : Type} [DecidableEq β] {cells1 cells2 : List (ℕ × β)}
    (hsub : ∀ c, c ∈ cells1 → c ∈ cells2) (m : ℕ) :
    dget (dictOf cells1) m ⊆ dget (dictOf cells2) m := by
  rw [dget_dictOf, dget_dictOf]
  intro v hv
  simp only [List.mem_toFinset, List.mem_map] at hv ⊢
  obtain ⟨c, hc, rfl⟩ := hv
  rw [List.mem_filter] at hc
  exact ⟨c, List.mem_filter.mpr ⟨hsub c hc.1, hc.2⟩, rfl⟩

/-! ## Claim theorem: tolerance monotonicity (C8) -/

/-- C8: with history, target/offset, window and mask fixed, every detector's
result is monotone in the tolerance — componentwise for the per-index
tolerance of `collapse_at`, scalar for the others — under the same-shape
containment of each result shape (set inclusion, per-key value inclusion
for dicts, cellwise sublist for the where format). -/
theorem C8_tolerance_monotone :
    (∀ (h : List (List ℚ)) (tgt : TargetArg) (n : ℕ) (mask : MaskA)
        (t1 t2 : List ℚ) (o1 o2 : Finset ℕ),
      List.Forall₂ (· ≤ ·) t1 t2 →
      collapse_at h tgt t1 n mask = .ok o1 →
      collapse_at h tgt t2 n mask = .ok o2 → o1 ⊆ o2) ∧
    (∀ (h : List (List ℚ)) (offset : Bool) (n : ℕ) (mask : MaskA)
        (t1 t2 : ℚ) (o1 o2 : Finset (ℕ × ℕ)),
      t1 ≤ t2 →
      collapse_as h offset t1 n mask = .ok o1 →
      collapse_as h offset t2 n mask = .ok o2 → o1 ⊆ o2) ∧
    (∀ (h : List (List (List ℚ))) (n : ℕ) (mask : MaskW) (t1 t2 : ℚ),
      t1 ≤ t2 →
      ResultWLE (collapse_weight h t1 n mask) (collapse_weight h t2 n mask)) ∧
    (∀ (h : List (List (List ℚ))) (n : ℕ) (mask : MaskP) (t1 t2 : ℚ),
      t1 ≤ t2 →
      ResultPLE (collapse_position h t1 n mask) (collapse_position h t2 n mask)) := by
  refine ⟨?_, ?_, ?_, ?_⟩
  · intro h tgt n mask t1 t2 o1 o2 hf h1 h2
    cases mask with
    | maOther => simp [collapse_at] at h1
    | maNone =>
      simp only [collapse_at, Except.ok.injEq] at h1 h2
      subst h1
      subst h2
      intro j hj
      simp only [List.mem_toFinset, List.mem_filter] at hj ⊢
      exact ⟨hj.1, tolOK_mono hf hj.2⟩
    | maSet elems =>
      simp only [collapse_at] at h1 h2
      by_cases hv : elems.any hasLen = true
      · rw [if_pos hv] at h1
        simp at h1
      · rw [if_neg hv] at h1 h2
        simp only [Except.ok.injEq] at h1 h2
        subst h1
        subst h2
        intro j hj
        simp only [List.mem_toFinset, List.mem_filter, Bool.and_eq_true] at hj ⊢
        exact ⟨hj.1, tolOK_mono hf hj.2.1, hj.2.2⟩
  · intro h offset n mask t1 t2 o1 o2 hle h1 h2
    cases mask with
    | maOther => simp [collapse_as] at h1
    | maNone =>
      simp only [collapse_as, Except.ok.injEq] at h1 h2
      subst h1
      subst h2
      intro pr hpr
      simp only [List.mem_toFinset, List.mem_filter, decide_eq_true_eq] at hpr ⊢
      exact ⟨hpr.1, le_trans hpr.2 hle⟩
    | maSet elems =>
      simp only [collapse_as] at h1 h2
      by_cases hv : elems.any badAsElem = true
      · rw [if_pos hv] at h1
        simp at h1
      · rw [if_neg hv] at h1 h2
        simp only [Except.ok.injEq] at h1 h2
        subst h1
        subst h2
        intro pr hpr
        simp only [List.mem_toFinset, List.mem_filter, Bool.and_eq_true,
          decide_eq_true_eq] at hpr ⊢
        exact ⟨hpr.1, le_trans hpr.2.1 hle, hpr.2.2⟩
  · intro h n mask t1 t2 hle
    have hsub : ∀ c, c ∈ wcells (window h n) t1 → c ∈ wcells (window h n) t2 :=
      fun c hc => (wcells_sublist (window h n) hle).subset hc
    cases mask with
    | wNone =>
      simp only [collapse_weight, ResultWLE]
      exact fun m => dget_dictOf_mono hsub m
    | wSet r =>
      simp only [collapse_weight, ResultWLE]
      refine Finset.sdiff_subset_sdiff ?_ (le_refl _)
      intro c hc
      rw [List.mem_toFinset] at hc ⊢
      exact hsub c hc
    | wDict r =>
      simp only [collapse_weight, ResultWLE]
      intro m
      have hnd1 : ((dictOf (wcells (window h n) t1)).map Prod.fst).Nodup := by
        rw [dictOf_keys]
        exact List.nodup_dedup _
      have hnd2 : ((dictOf (wcells (window h n) t2)).map Prod.fst).Nodup := by
        rw [dictOf_keys]
        exact List.nodup_dedup _
      rw [dget_subWDict _ _ _ hnd1, dget_subWDict _ _ _ hnd2]
      exact Finset.sdiff_subset_sdiff (dget_dictOf_mono hsub m) (le_refl _)
    | wWhere ms ws =>
      simp only [collapse_weight, ResultWLE]
      rw [zip_fst_snd, zip_fst_snd]
      exact List.Sublist.filter _ (wcells_sublist (window h n) hle)
  · intro h n mask t1 t2 hle
    have hsub : ∀ c, c ∈ pcells (window h n) t1 → c ∈ pcells (window h n) t2 :=
      fun c hc => (pcells_sublist (window h n) hle).subset hc
    cases mask with
    | pNone =>
      simp only [collapse_position, ResultPLE]
      exact fun m => dget_dictOf_mono hsub m
    | pSet r =>
      simp only [collapse_position, ResultPLE]
      refine Finset.sdiff_subset_sdiff (Finset.sdiff_subset_sdiff ?_ (le_refl _))
        (le_refl _)
      intro c hc
      rw [List.mem_toFinset] at hc ⊢
      exact hsub c hc
    | pDict r =>
      simp only [collapse_position, ResultPLE]
      intro m
      have hnd1 : ((dictOf (pcells (window h n) t1)).map Prod.fst).Nodup := by
        rw [dictOf_keys]
        exact List.nodup_dedup _
      have hnd2 : ((dictOf (pcells (window h n) t2)).map Prod.fst).Nodup := by
        rw [dictOf_keys]
        exact List.nodup_dedup _
      have e1 : dget (((dictOf (pcells (window h n) t1)).map
            (fun e => (e.1, e.2 \ symmClose (dget r e.1)))).filter
              (fun e => decide (e.2 ≠ ∅))) m =
          dget (dictOf (pcells (window h n) t1)) m \ symmClose (dget r m) :=
        dget_submap _ (fun k => symmClose (dget r k)) m hnd1
      have e2 : dget (((dictOf (pcells (window h n) t2)).map
            (fun e => (e.1, e.2 \ symmClose (dget r e.1)))).filter
              (fun e => decide (e.2 ≠ ∅))) m =
          dget (dictOf (pcells (window h n) t2)) m \ symmClose (dget r m) :=
        dget_submap _ (fun k => symmClose (dget r k)) m hnd2
      rw [e1, e2]
      exact Finset.sdiff_subset_sdiff (dget_dictOf_mono hsub m) (le_refl _)
    | pWhere ms prs =>
      simp only [collapse_position, ResultPLE]
      rw [zip_fst_snd, zip_fst_snd]
      exact List.Sublist.filter _ (pcells_sublist (window h n) hle)

theorem chgAt_exH_0 : chgAt .noT (window exH 2) 0 = 0 := by
  norm_num [chgAt, window, exH, colAt, qmax, qmin, max_def, min_def]

theorem chgAt_exH_1 : chgAt .noT (window exH 2) 1 = 1 := by
  norm_num [chgAt, window, exH, colAt, qmax, qmin, max_def, min_def]

theorem chgAt_exH_2 : chgAt .noT (window exH 2) 2 = 0 := by
  norm_num [chgAt, window, exH, colAt, qmax, qmin, max_def, min_def]

theorem dimOf_exH : dimOf (window exH 2) = 3 := by
  norm_num [dimOf, window, exH]

theorem chgAs_exH_01 : chgAs false (window exH 2) (0, 1) = 6 := by
  norm_num [chgAs, window, exH, qmax, max_def]

theorem chgAs_exH_02 : chgAs false (window exH 2) (0, 2) = 1 := by
  norm_num [chgAs, window, exH, qmax, max_def]

theorem chgAs_exH_12 : chgAs false (window exH 2) (1, 2) = 5 := by
  norm_num [chgAs, window, exH, qmax, max_def]

theorem collapse_at_exH_eval :
    collapse_at exH .noT [0] 2 (.maSet ([0].map MaskElem.mInt)) = .ok {2} := by
  simp [collapse_at, dimOf_exH, tolOK, List.range_succ, hasLen,
    chgAt_exH_0, chgAt_exH_1, chgAt_exH_2]

theorem collapse_as_exH_eval :
    collapse_as exH false 1 2 (.maSet [MaskElem.mInt 1]) = .ok {(0, 2)} := by
  simp [collapse_as, dimOf_exH, pairList, List.range_succ, selAs, badAsElem,
    chgAs_exH_01, chgAs_exH_02, chgAs_exH_12]

/-- Witness for the C6 disjointness theorem: feeding the prior result `{0}`
back to `collapse_at` removes it, and the theorem certifies the
disjointness of the concrete output `{2}`. -/
theorem C6_mask_disjoint_witness :
    collapse_at exH .noT [0] 2 (.maSet ([0].map MaskElem.mInt)) = .ok {2} ∧
    ({2} : Finset ℕ) ∩ [0].toFinset = ∅ :=
  ⟨collapse_at_exH_eval,
    C6_mask_disjoint.1 exH .noT [0] 2 [0] {2} collapse_at_exH_eval⟩

/-- Witness for the C7 validation theorem: a 3-tuple in a `collapse_at` set
mask raises `ValueError` on the concrete history, and a bare `1` in a
`collapse_as` mask excludes every pair touching index 1 from the concrete
output `{(0, 2)}`. -/
theorem C7_mask_validation_witness :
    collapse_at exH .noT [0] 2 (.maSet [MaskElem.mTup [1, 2, 3]]) =
      .error .valueErr ∧
    (∀ pr ∈ ({(0, 2)} : Finset (ℕ × ℕ)), pr.1 ≠ 1 ∧ pr.2 ≠ 1) :=
  ⟨(C7_mask_validation exH .noT [0] 2 [MaskElem.mTup [1, 2, 3]]
        exH false 0 2).2.2.1 ⟨[1, 2, 3], by decide⟩,
    fun pr hpr =>
      (C7_mask_validation exH .noT [0] 2 [MaskElem.mInt 1]
          exH false 1 2).2.2.2.2.2.2 1 {(0, 2)} (by decide)
        collapse_as_exH_eval pr hpr⟩

/-- Witness for the C8 monotonicity theorem: widening the `collapse_at`
tolerance from `[0]` to `[1]` grows the concrete result from `{0, 2}` to
`{0, 1, 2}`, and the weight detector's dict result grows with the scalar
tolerance. -/
theorem C8_tolerance_monotone_witness :
    collapse_at exH .noT [0] 2 .maNone = .ok {0, 2} ∧
    collapse_at exH .noT [1] 2 .maNone = .ok {0, 1, 2} ∧
    ({0, 2} : Finset ℕ) ⊆ {0, 1, 2} ∧
    ResultWLE (collapse_weight exWH 0 2 .wNone) (collapse_weight exWH 1 2 .wNone) := by
  have e1 : collapse_at exH .noT [0] 2 .maNone = .ok {0, 2} := by
    simp [collapse_at, dimOf_exH, tolOK, List.range_succ,
      chgAt_exH_0, chgAt_exH_1, chgAt_exH_2]
  have e2 : collapse_at exH .noT [1] 2 .maNone = .ok {0, 1, 2} := by
    simp [collapse_at, dimOf_exH, tolOK, List.range_succ,
      chgAt_exH_0, chgAt_exH_1, chgAt_exH_2]
  exact ⟨e1, e2,
    C8_tolerance_monotone.1 exH .noT 2 .maNone [0] [1] {0, 2} {0, 1, 2}
      (List.Forall₂.cons (by decide) List.Forall₂.nil) e1 e2,
    C8_tolerance_monotone.2.2.1 exWH 2 .wNone 0 1 (by decide)⟩

/-! ## Digit and repr character lemmas -/

theorem digitChar_isDig (d : ℕ) (h : d < 10) : isDig (digitChar d) = true := by
  interval_cases d <;> decide

theorem digVal_digitChar (d : ℕ) (h : d < 10) : digVal (digitChar d) = d := by
  interval_cases d <;> decide

theorem reprNat_ne_nil (n : ℕ) : reprNat n ≠ [] := by
  unfold reprNat
  split
  · simp
  · rename_i h
    simp only [ne_eq, List.map_eq_nil_iff, List.reverse_eq_nil_iff]
    exact Nat.digits_ne_nil_iff_ne_zero.mpr h

theorem reprNat_all_dig (n : ℕ) : ∀ c ∈ reprNat n, isDig c = true := by
  unfold reprNat
  split
  · intro c hc
    rw [List.mem_singleton] at hc
    subst hc
    decide
  · intro c hc
    rw [List.mem_map] at hc
    obtain ⟨d, hd, rfl⟩ := hc
    rw [List.mem_reverse] at hd
    exact digitChar_isDig d (Nat.digits_lt_base (by norm_num) hd)

theorem foldl_digits_eq (L : List ℕ) (hL : ∀ d ∈ L, d < 10) :
    ∀ acc : ℕ, ((L.map digitChar).foldl (fun a c => 10 * a + digVal c) acc) =
      L.foldl (fun a d => 10 * a + d) acc := by
  induction L with
  | nil => intro acc; rfl
  | cons d L ih =>
    intro acc
    simp only [List.map_cons, List.foldl_cons]
    rw [digVal_digitChar d (hL d (by simp))]
    exact ih (fun x hx => hL x (by simp [hx])) _

theorem foldl_reverse_ofDigits (L : List ℕ) :
    ∀ acc : ℕ, L.reverse.foldl (fun a d => 10 * a + d) acc =
      acc * 10 ^ L.length + Nat.ofDigits 10 L := by
  induction L with
  | nil => intro acc; simp
  | cons d L ih =>
    intro acc
    simp only [List.reverse_cons, List.foldl_append, List.foldl_cons,
      List.foldl_nil, ih acc, Nat.ofDigits_cons, List.length_cons]
    ring

theorem parseNat_reprNat (n : ℕ) : parseNat (reprNat n) = some n := by
  rcases hl : reprNat n with _ | ⟨c, cs⟩
  · exact absurd hl (reprNat_ne_nil n)
  · rw [← hl]
    have hne : reprNat n ≠ [] := reprNat_ne_nil n
    have hall : (reprNat n).all isDig = true :=
      List.all_eq_true.mpr (reprNat_all_dig n)
    unfold parseNat
    rw [hl]
    rw [← hl]
    simp only [hall, if_true]
    congr 1
    unfold reprNat
    split
    · rename_i h
      subst h
      decide
    · have h1 := foldl_digits_eq (Nat.digits 10 n).reverse
        (fun d hd => Nat.digits_lt_base (by norm_num) (List.mem_reverse.mp hd)) 0
      rw [h1]
      have h2 := foldl_reverse_ofDigits (Nat.digits 10 n) 0
      rw [h2]
      simp [Nat.ofDigits_digits]

theorem mem_joinCS {c : Char} {l : List (List Char)} (h : c ∈ joinCS l) :
    (∃ x ∈ l, c ∈ x) ∨ c = ',' ∨ c = ' ' := by
  induction l with
  | nil => simp [joinCS] at h
  | cons x rest ih =>
    cases rest with
    | nil =>
      exact Or.inl ⟨x, by simp, h⟩
    | cons y tl =>
      have hx : joinCS (x :: y :: tl) = x ++ [',', ' '] ++ joinCS (y :: tl) := rfl
      rw [hx] at h
      rcases List.mem_append.mp h with h1 | h2
      · rcases List.mem_append.mp h1 with h3 | h4
        · exact Or.inl ⟨x, by simp, h3⟩
        · rcases List.mem_cons.mp h4 with rfl | h5
          · exact Or.inr (Or.inl rfl)
          · rw [List.mem_singleton] at h5
            exact Or.inr (Or.inr h5)
      · rcases ih h2 with ⟨z, hz, hcz⟩ | h6
        · exact Or.inl ⟨z, by simp [List.mem_cons.mp hz], hcz⟩
        · exact Or.inr h6

theorem reprNat_chars (n : ℕ) : ∀ c ∈ reprNat n, reprChar c :=
  fun c hc => Or.inl (reprNat_all_dig n c hc)

theorem chars_append {P : Char → Prop} {xs ys : List Char}
    (hx : ∀ c ∈ xs, P c) (hy : ∀ c ∈ ys, P c) : ∀ c ∈ xs ++ ys, P c := by
  intro c hc
  rcases List.mem_append.mp hc with h | h
  · exact hx c h
  · exact hy c h

theorem chars_cons {P : Char → Prop} {x : Char} {xs : List Char}
    (hx : P x) (h : ∀ c ∈ xs, P c) : ∀ c ∈ x :: xs, P c := by
  intro c hc
  rcases List.mem_cons.mp hc with rfl | h2
  · exact hx
  · exact h c h2

theorem chars_joinCS {P : Char → Prop} {l : List (List Char)}
    (h : ∀ x ∈ l, ∀ c ∈ x, P c) (hc : P ',') (hs : P ' ') :
    ∀ c ∈ joinCS l, P c := by
  intro c hmem
  rcases mem_joinCS hmem with ⟨x, hx, hcx⟩ | rfl | rfl
  · exact h x hx c hcx
  · exact hc
  · exact hs

theorem reprElem_chars (e : PyElem) : ∀ c ∈ reprElem e, reprChar c := by
  cases e with
  | pint n => exact reprNat_chars n
  | ppair a b =>
    exact chars_cons (by decide)
      (chars_append
        (chars_append (chars_append (reprNat_chars a) (by decide))
          (reprNat_chars b))
        (by decide))

theorem reprIntSet_chars (l : List ℕ) : ∀ c ∈ reprIntSet l, reprChar c :=
  chars_append
    (chars_append (by decide)
      (chars_joinCS (fun x hx => by
        obtain ⟨m, _, rfl⟩ := List.mem_map.mp hx
        exact reprNat_chars m) (by decide) (by decide)))
    (by decide)

theorem reprEntry_chars (e : ℕ × List ℕ) : ∀ c ∈ reprEntry e, reprChar c :=
  chars_append (chars_append (reprNat_chars e.1) (by decide))
    (reprIntSet_chars e.2)

theorem reprTupleNat_chars (l : List ℕ) : ∀ c ∈ reprTupleNat l, reprChar c := by
  rcases l with _ | ⟨a, _ | ⟨b, tl⟩⟩
  · exact by decide
  · exact chars_cons (by decide) (chars_append (reprNat_chars a) (by decide))
  · exact chars_cons (by decide)
      (chars_append
        (chars_joinCS (fun x hx => by
          obtain ⟨m, _, rfl⟩ := List.mem_map.mp hx
          exact reprNat_chars m) (by decide) (by decide))
        (by decide))

theorem reprElemSet_chars (l : List PyElem) : ∀ c ∈ reprElemSet l, reprChar c :=
  chars_append
    (chars_append (by decide)
      (chars_joinCS (fun x hx => by
        obtain ⟨e, _, rfl⟩ := List.mem_map.mp hx
        exact reprElem_chars e) (by decide) (by decide)))
    (by decide)

theorem reprVal_chars (v : PyVal) : ∀ c ∈ reprVal v, reprChar c := by
  cases v with
  | pset l => exact reprElemSet_chars l
  | pdict l =>
    show ∀ c ∈ (if l = [] then [lbr, rbr]
        else lbr :: (joinCS (l.map reprEntry) ++ [rbr])), reprChar c
    by_cases h : l = []
    · rw [if_pos h]
      decide
    · rw [if_neg h]
      exact chars_cons (by decide)
        (chars_append
          (chars_joinCS (fun x hx => by
            obtain ⟨e, _, rfl⟩ := List.mem_map.mp hx
            exact reprEntry_chars e) (by decide) (by decide))
          (by decide))
  | pwhere ms idx =>
    show ∀ c ∈ (if ms = [] ∧ idx = [] then ['(', ')']
        else '(' :: ((reprTupleNat ms ++ sepCS ++ reprTupleNat idx) ++ [')'])), reprChar c
    by_cases h : ms = [] ∧ idx = []
    · rw [if_pos h]
      decide
    · rw [if_neg h]
      exact chars_cons (by decide)
        (chars_append
          (chars_append (chars_append (reprTupleNat_chars ms) (by decide))
            (reprTupleNat_chars idx))
          (by decide))

theorem reprChar_ne_a {c : Char} (h : reprChar c) : c ≠ 'a' := by
  intro hc
  subst hc
  rcases h with h | h
  · exact absurd h (by decide)
  · exact absurd h (by decide)

theorem reprChar_ne_semi {c : Char} (h : reprChar c) : c ≠ ';' := by
  intro hc
  subst hc
  rcases h with h | h
  · exact absurd h (by decide)
  · exact absurd h (by decide)
/-! ## Codec: bracket-depth and top-level-split machinery -/

theorem neu_spec {c : Char} (h : neu c = true) :
    c ≠ '(' ∧ c ≠ '[' ∧ c ≠ lbr ∧ c ≠ ')' ∧ c ≠ ']' ∧ c ≠ rbr := by
  refine ⟨?_, ?_, ?_, ?_, ?_, ?_⟩ <;>
    · intro e
      subst e
      exact absurd h (by decide)

theorem upd_neu {c : Char} (h : neu c = true) (d : ℕ) : upd d c = d := by
  obtain ⟨h1, h2, h3, h4, h5, h6⟩ := neu_spec h
  simp [upd, h1, h2, h3, h4, h5, h6]

theorem neu_of_isDig {c : Char} (h : isDig c = true) : neu c = true := by
  have hne : ∀ x : Char, isDig x = false → c ≠ x := by
    intro x hx e
    rw [e] at h
    rw [h] at hx
    exact absurd hx (by simp)
  unfold neu
  simp [hne '(' (by decide), hne '[' (by decide), hne lbr (by decide),
        hne ')' (by decide), hne ']' (by decide), hne rbr (by decide)]

theorem chk_append {xs ys : List Char} {d d₁ d₂ : ℕ}
    (hx : chk xs d = some d₁) (hy : chk ys d₁ = some d₂) :
    chk (xs ++ ys) d = some d₂ := by
  induction xs generalizing d with
  | nil =>
    simp [chk] at hx
    subst hx
    exact hy
  | cons c tl ih =>
    simp only [chk] at hx ⊢
    by_cases h0 : upd d c = 0
    · rw [if_pos h0] at hx
      exact absurd hx (by simp)
    · rw [if_neg h0] at hx ⊢
      exact ih hx

theorem chk_neutral {xs : List Char} (h : ∀ c ∈ xs, neu c = true) {d : ℕ}
    (hd : 0 < d) : chk xs d = some d := by
  induction xs with
  | nil => rfl
  | cons c tl ih =>
    have hc := upd_neu (h c (by simp)) d
    simp only [chk, hc]
    rw [if_neg (by omega)]
    exact ih (fun x hx => h x (by simp [hx]))

theorem chk_pos {xs : List Char} {d d' : ℕ} (hd : 0 < d)
    (h : chk xs d = some d') : 0 < d' := by
  induction xs generalizing d with
  | nil =>
    simp [chk] at h
    omega
  | cons c tl ih =>
    simp only [chk] at h
    by_cases h0 : upd d c = 0
    · rw [if_pos h0] at h
      exact absurd h (by simp)
    · rw [if_neg h0] at h
      exact ih (by omega) h

theorem splitTop_cons (d : ℕ) (c : Char) (l acc : List Char) :
    splitTop d (c :: l) acc =
      if d = 0 ∧ c = ',' then acc.reverse :: splitTop 0 l []
      else splitTop (upd d c) l (c :: acc) := rfl

theorem splitTop_pos {xs : List Char} {d d' : ℕ} (hd : 0 < d)
    (h : chk xs d = some d') (rest acc : List Char) :
    splitTop d (xs ++ rest) acc = splitTop d' rest (xs.reverse ++ acc) := by
  induction xs generalizing d acc with
  | nil =>
    simp [chk] at h
    subst h
    simp
  | cons c tl ih =>
    simp only [chk] at h
    by_cases h0 : upd d c = 0
    · rw [if_pos h0] at h
      exact absurd h (by simp)
    · rw [if_neg h0] at h
      have e1 : (c :: tl) ++ rest = c :: (tl ++ rest) := rfl
      rw [e1, splitTop_cons, if_neg (by omega), ih (by omega) h (c :: acc)]
      simp

theorem consumesTop_nil : ConsumesTop [] := by
  intro acc rest
  simp

theorem consumesTop_append {xs ys : List Char} (hx : ConsumesTop xs)
    (hy : ConsumesTop ys) : ConsumesTop (xs ++ ys) := by
  intro acc rest
  rw [List.append_assoc, hx, hy]
  simp

theorem consumesTop_neu {c : Char} (h : neu c = true) (hc : c ≠ ',') :
    ConsumesTop [c] := by
  intro acc rest
  have e1 : [c] ++ rest = c :: rest := rfl
  rw [e1, splitTop_cons, if_neg (by simp [hc]), upd_neu h]
  simp

theorem consumesTop_open {o cl : Char} {body : List Char} {dc : ℕ}
    (ho : upd 0 o ≠ 0) (hb : chk body (upd 0 o) = some dc)
    (hcl : upd dc cl = 0) : ConsumesTop (o :: body ++ [cl]) := by
  intro acc rest
  have ho' : o ≠ ',' := by
    intro e
    rw [e] at ho
    exact ho rfl
  have hdc : 0 < dc := chk_pos (by omega) hb
  rw [List.cons_append, List.cons_append, List.append_assoc]
  rw [splitTop_cons, if_neg (by simp [ho'])]
  rw [splitTop_pos (by omega) hb ([cl] ++ rest) (o :: acc)]
  have e2 : [cl] ++ rest = cl :: rest := rfl
  rw [e2, splitTop_cons, if_neg (by omega), hcl]
  simp

theorem consumesTop_all {xs : List Char}
    (h : ∀ c ∈ xs, neu c = true ∧ c ≠ ',') : ConsumesTop xs := by
  induction xs with
  | nil => exact consumesTop_nil
  | cons c tl ih =>
    have e1 : (c :: tl) = [c] ++ tl := rfl
    rw [e1]
    exact consumesTop_append
      (consumesTop_neu (h c (by simp)).1 (h c (by simp)).2)
      (ih (fun x hx => h x (by simp [hx])))

theorem splitTop_of_consumes {x : List Char} (h : ConsumesTop x)
    (acc : List Char) : splitTop 0 x acc = [acc.reverse ++ x] := by
  have e1 := h acc []
  rw [List.append_nil] at e1
  rw [e1]
  show [(x.reverse ++ acc).reverse] = _
  simp

theorem splitTop_joinCS :
    ∀ (tl : List (List Char)) (x acc : List Char),
      (∀ y ∈ x :: tl, ConsumesTop y) →
      splitTop 0 (joinCS (x :: tl)) acc =
        (acc.reverse ++ x) :: tl.map (fun y => ' ' :: y) := by
  intro tl
  induction tl with
  | nil =>
    intro x acc h
    show splitTop 0 x acc = _
    exact splitTop_of_consumes (h x (by simp)) acc
  | cons y tl2 ih =>
    intro x acc h
    show splitTop 0 (x ++ [',', ' '] ++ joinCS (y :: tl2)) acc = _
    rw [List.append_assoc, h x (by simp)]
    show splitTop 0 (',' :: ' ' :: joinCS (y :: tl2)) (x.reverse ++ acc) = _
    rw [splitTop_cons, if_pos (by simp)]
    rw [splitTop_cons, if_neg (by simp), upd_neu (by decide)]
    rw [ih y [' '] (fun c hc => h c (List.mem_cons_of_mem _ hc))]
    simp
theorem ne_of_isDig {c : Char} (h : isDig c = true) {x : Char}
    (hx : isDig x = false) : c ≠ x := by
  intro e
  rw [e] at h
  rw [h] at hx
  exact absurd hx (by simp)

theorem consumesTop_reprNat (n : ℕ) : ConsumesTop (reprNat n) :=
  consumesTop_all (fun c hc =>
    ⟨neu_of_isDig (reprNat_all_dig n c hc),
     ne_of_isDig (reprNat_all_dig n c hc) (by decide)⟩)

theorem chk_reprNat (n : ℕ) {d : ℕ} (hd : 0 < d) : chk (reprNat n) d = some d :=
  chk_neutral (fun c hc => neu_of_isDig (reprNat_all_dig n c hc)) hd

theorem neu_joinCS_reprNat (l : List ℕ) :
    ∀ c ∈ joinCS (l.map reprNat), neu c = true := by
  intro c hc
  rcases mem_joinCS hc with ⟨x, hx, hcx⟩ | rfl | rfl
  · obtain ⟨m, _, rfl⟩ := List.mem_map.mp hx
    exact neu_of_isDig (reprNat_all_dig m c hcx)
  · decide
  · decide

theorem chk_joinCS_reprNat (l : List ℕ) {d : ℕ} (hd : 0 < d) :
    chk (joinCS (l.map reprNat)) d = some d :=
  chk_neutral (neu_joinCS_reprNat l) hd

theorem consumesTop_reprElem (e : PyElem) : ConsumesTop (reprElem e) := by
  cases e with
  | pint n => exact consumesTop_reprNat n
  | ppair a b =>
    show ConsumesTop (('(' :: (reprNat a ++ sepCS ++ reprNat b)) ++ [')'])
    refine @consumesTop_open '(' ')' (reprNat a ++ sepCS ++ reprNat b) 1
      (by decide) ?_ (by decide)
    have h1 : chk (reprNat a ++ sepCS ++ reprNat b) 1 = some 1 :=
      chk_append (chk_append (chk_reprNat a (by decide))
        (chk_neutral (by decide) (by decide))) (chk_reprNat b (by decide))
    rw [show upd 0 '(' = 1 from by decide]
    exact h1

theorem consumesTop_reprIntSet (l : List ℕ) : ConsumesTop (reprIntSet l) := by
  have e1 : reprIntSet l =
      ['s', 'e', 't'] ++
        (('(' :: (('[' :: joinCS (l.map reprNat)) ++ [']'])) ++ [')']) := by
    show strSetOpen ++ joinCS (l.map reprNat) ++ strSetClose = _
    simp [strSetOpen, strSetClose]
  rw [e1]
  refine consumesTop_append (consumesTop_all (by decide)) ?_
  refine @consumesTop_open '(' ')' (('[' :: joinCS (l.map reprNat)) ++ [']']) 1
    (by decide) ?_ (by decide)
  rw [show upd 0 '(' = 1 from by decide]
  have h2 : chk ['['] 1 = some 2 := by decide
  have h3 : chk [']'] 2 = some 1 := by decide
  show chk ((['['] ++ joinCS (l.map reprNat)) ++ [']']) 1 = some 1
  exact chk_append (chk_append h2 (chk_joinCS_reprNat l (by decide))) h3

theorem consumesTop_reprEntry (e : ℕ × List ℕ) : ConsumesTop (reprEntry e) :=
  consumesTop_append
    (consumesTop_append (consumesTop_reprNat e.1) (consumesTop_all (by decide)))
    (consumesTop_reprIntSet e.2)

theorem consumesTop_reprTupleNat (l : List ℕ) : ConsumesTop (reprTupleNat l) := by
  rcases l with _ | ⟨a, _ | ⟨b, tl⟩⟩
  · show ConsumesTop (('(' :: []) ++ [')'])
    exact @consumesTop_open '(' ')' [] 1 (by decide) (by decide) (by decide)
  · have e1 : reprTupleNat [a] = ('(' :: (reprNat a ++ [','])) ++ [')'] := by
      show '(' :: (reprNat a ++ [',', ')']) = _
      simp
    rw [e1]
    refine @consumesTop_open '(' ')' (reprNat a ++ [',']) 1
      (by decide) ?_ (by decide)
    rw [show upd 0 '(' = 1 from by decide]
    exact chk_append (chk_reprNat a (by decide)) (by decide)
  · show ConsumesTop (('(' :: joinCS ((a :: b :: tl).map reprNat)) ++ [')'])
    refine @consumesTop_open '(' ')' (joinCS ((a :: b :: tl).map reprNat)) 1
      (by decide) ?_ (by decide)
    rw [show upd 0 '(' = 1 from by decide]
    exact chk_joinCS_reprNat (a :: b :: tl) (by decide)

/-! ## Codec: strip, trim and item-list lemmas -/

theorem stripPre_append (p s : List Char) : stripPre p (p ++ s) = some s := by
  induction p with
  | nil => rfl
  | cons c ps ih => simp [stripPre, ih]

theorem stripSuf_concat (suf s : List Char) : stripSuf suf (s ++ suf) = some s := by
  simp [stripSuf, List.reverse_append, stripPre_append]

theorem stripWrap_eq (pre suf s : List Char) :
    stripWrap pre suf (pre ++ s ++ suf) = some s := by
  rw [List.append_assoc]
  simp [stripWrap, stripPre_append, stripSuf_concat]

theorem trimSp_space (x : List Char) : trimSp (' ' :: x) = trimSp x := by
  simp [trimSp, List.dropWhile]

theorem trimSp_of_ne {c : Char} (h : ¬c = ' ') (x : List Char) :
    trimSp (c :: x) = c :: x := by
  simp [trimSp, List.dropWhile, h]

theorem trimSp_reprNat (n : ℕ) : trimSp (reprNat n) = reprNat n := by
  rcases hl : reprNat n with _ | ⟨c, cs⟩
  · rfl
  · refine trimSp_of_ne ?_ cs
    have hd : isDig c = true := reprNat_all_dig n c (by rw [hl]; simp)
    exact ne_of_isDig hd (by decide)

theorem trimSp_reprElem (e : PyElem) : trimSp (reprElem e) = reprElem e := by
  cases e with
  | pint n => exact trimSp_reprNat n
  | ppair a b =>
    show trimSp ('(' :: ((reprNat a ++ sepCS ++ reprNat b) ++ [')'])) = _
    exact trimSp_of_ne (by decide) _

theorem trimSp_eq_self_of_head {x : List Char} (c : Char) (cs : List Char)
    (he : x = c :: cs) (h : ¬c = ' ') : trimSp x = x := by
  subst he
  exact trimSp_of_ne h cs

theorem trimSp_reprEntry (e : ℕ × List ℕ) : trimSp (reprEntry e) = reprEntry e := by
  rcases hl : reprNat e.1 with _ | ⟨c, cs⟩
  · exact absurd hl (reprNat_ne_nil e.1)
  · have hd : isDig c = true := reprNat_all_dig e.1 c (by rw [hl]; simp)
    refine trimSp_eq_self_of_head c ((cs ++ [':', ' ']) ++ reprIntSet e.2) ?_
      (ne_of_isDig hd (by decide))
    show reprNat e.1 ++ [':', ' '] ++ reprIntSet e.2 = _
    rw [hl]
    rfl

theorem trimSp_reprTupleNat (l : List ℕ) :
    trimSp (reprTupleNat l) = reprTupleNat l := by
  rcases l with _ | ⟨a, _ | ⟨b, tl⟩⟩
  · rfl
  · show trimSp ('(' :: (reprNat a ++ [',', ')'])) = _
    exact trimSp_of_ne (by decide) _
  · show trimSp ('(' :: (joinCS ((a :: b :: tl).map reprNat) ++ [')'])) = _
    exact trimSp_of_ne (by decide) _

theorem joinCS_ne_nil {z : List Char} (zs : List (List Char)) (hz : z ≠ []) :
    joinCS (z :: zs) ≠ [] := by
  cases zs with
  | nil => exact hz
  | cons y ys =>
    show z ++ [',', ' '] ++ joinCS (y :: ys) ≠ []
    simp [hz]

theorem reprElem_ne_nil (e : PyElem) : reprElem e ≠ [] := by
  cases e with
  | pint n => exact reprNat_ne_nil n
  | ppair a b =>
    show '(' :: ((reprNat a ++ sepCS ++ reprNat b) ++ [')']) ≠ []
    simp

theorem reprEntry_ne_nil (e : ℕ × List ℕ) : reprEntry e ≠ [] := by
  show reprNat e.1 ++ [':', ' '] ++ reprIntSet e.2 ≠ []
  simp [reprNat_ne_nil e.1]

theorem reprTupleNat_ne_nil (l : List ℕ) : reprTupleNat l ≠ [] := by
  rcases l with _ | ⟨a, _ | ⟨b, tl⟩⟩ <;> simp [reprTupleNat]

theorem parseItems_of_ne {β : Type} (f : List Char → Option β)
    {inner : List Char} (h : inner ≠ []) :
    parseItems f inner = (splitTop 0 inner []).mapM (fun c => f (trimSp c)) := by
  rcases inner with _ | ⟨c, cs⟩
  · exact absurd rfl h
  · rfl

theorem mapM_map_eq {β : Type} (f : List Char → Option β) (g : β → List Char)
    (l : List β) (h : ∀ b ∈ l, f (g b) = some b) : (l.map g).mapM f = some l := by
  induction l with
  | nil => rfl
  | cons b tl ih =>
    rw [List.map_cons, List.mapM_cons, h b (by simp),
      ih (fun x hx => h x (by simp [hx]))]
    rfl

theorem parseItems_join {β : Type} (f : List Char → Option β) (g : β → List Char)
    (x : β) (tl : List β) (hne : g x ≠ [])
    (hc : ∀ b ∈ x :: tl, ConsumesTop (g b))
    (hf : ∀ b ∈ x :: tl, f (trimSp (g b)) = some b) :
    parseItems f (joinCS ((x :: tl).map g)) = some (x :: tl) := by
  have hj : joinCS ((x :: tl).map g) ≠ [] := by
    show joinCS (g x :: tl.map g) ≠ []
    exact joinCS_ne_nil _ hne
  rw [parseItems_of_ne f hj]
  show ((splitTop 0 (joinCS (g x :: tl.map g)) [])).mapM _ = _
  rw [splitTop_joinCS (tl.map g) (g x) [] ?hcons]
  case hcons =>
    intro y hy
    rcases List.mem_cons.mp hy with rfl | hy2
    · exact hc x (by simp)
    · obtain ⟨b, hb, rfl⟩ := List.mem_map.mp hy2
      exact hc b (List.mem_cons_of_mem _ hb)
  have h2 : ((tl.map g).map (fun y => ' ' :: y)).mapM (fun c => f (trimSp c))
      = some tl := by
    rw [List.map_map]
    refine mapM_map_eq _ _ tl (fun b hb => ?_)
    show f (trimSp (' ' :: g b)) = some b
    rw [trimSp_space]
    exact hf b (List.mem_cons_of_mem _ hb)
  simp only [List.reverse_nil, List.nil_append]
  rw [List.mapM_cons, hf x (by simp), h2]
  rfl
/-! ## Codec: parser-layer roundtrips -/

theorem mapM_splitTop_join {β : Type} (f : List Char → Option β)
    (g : β → List Char) (x : β) (tl : List β)
    (hc : ∀ b ∈ x :: tl, ConsumesTop (g b))
    (hf : ∀ b ∈ x :: tl, f (trimSp (g b)) = some b) :
    (splitTop 0 (joinCS ((x :: tl).map g)) []).mapM (fun c => f (trimSp c))
      = some (x :: tl) := by
  show (splitTop 0 (joinCS (g x :: tl.map g)) []).mapM _ = _
  rw [splitTop_joinCS (tl.map g) (g x) [] ?hcons]
  case hcons =>
    intro y hy
    rcases List.mem_cons.mp hy with rfl | hy2
    · exact hc x (by simp)
    · obtain ⟨b, hb, rfl⟩ := List.mem_map.mp hy2
      exact hc b (List.mem_cons_of_mem _ hb)
  have h2 : ((tl.map g).map (fun y => ' ' :: y)).mapM (fun c => f (trimSp c))
      = some tl := by
    rw [List.map_map]
    refine mapM_map_eq _ _ tl (fun b hb => ?_)
    show f (trimSp (' ' :: g b)) = some b
    rw [trimSp_space]
    exact hf b (List.mem_cons_of_mem _ hb)
  simp only [List.reverse_nil, List.nil_append]
  rw [List.mapM_cons, hf x (by simp), h2]
  rfl

theorem parseElem_not_paren {c : Char} (h : ¬c = '(') (tl : List Char) :
    parseElem (c :: tl) = (parseNat (c :: tl)).map .pint := by
  rw [parseElem.eq_def]
  split
  · rename_i heq
    injection heq with e1 e2
    exact absurd e1 h
  · rfl

theorem parsePair_repr (a b : ℕ) :
    parsePair (reprElem (.ppair a b)) = some (.ppair a b) := by
  have e0 : reprElem (.ppair a b) =
      ['('] ++ (reprNat a ++ sepCS ++ reprNat b) ++ [')'] := rfl
  rw [e0]
  show (stripWrap ['('] [')'] _).bind _ = _
  rw [stripWrap_eq, Option.some_bind]
  show (match splitTop 0 (joinCS [reprNat a, reprNat b]) [] with
    | [x, y] =>
      match parseNat (trimSp x), parseNat (trimSp y) with
      | some a, some b => some (PyElem.ppair a b)
      | _, _ => none
    | _ => none) = _
  rw [splitTop_joinCS [reprNat b] (reprNat a) [] ?hcons]
  case hcons =>
    intro y hy
    rcases List.mem_cons.mp hy with rfl | hy2
    · exact consumesTop_reprNat a
    · rcases List.mem_cons.mp hy2 with rfl | h3
      · exact consumesTop_reprNat b
      · simp at h3
  simp only [List.reverse_nil, List.nil_append, List.map_cons, List.map_nil]
  show (match parseNat (trimSp (reprNat a)),
      parseNat (trimSp (' ' :: reprNat b)) with
    | some a, some b => some (PyElem.ppair a b)
    | _, _ => none) = _
  rw [trimSp_reprNat, trimSp_space, trimSp_reprNat, parseNat_reprNat,
    parseNat_reprNat]

theorem parseElem_reprElem (e : PyElem) : parseElem (reprElem e) = some e := by
  cases e with
  | pint n =>
    rcases hl : reprNat n with _ | ⟨c, cs⟩
    · exact absurd hl (reprNat_ne_nil n)
    · have hd : isDig c = true := reprNat_all_dig n c (by rw [hl]; simp)
      show parseElem (reprNat n) = _
      rw [hl, parseElem_not_paren (ne_of_isDig hd (by decide)) cs, ← hl,
        parseNat_reprNat]
      rfl
  | ppair a b =>
    show parsePair (reprElem (.ppair a b)) = _
    exact parsePair_repr a b

theorem parseSetV_repr (l : List PyElem) :
    parseSetV (reprElemSet l) = some (.pset l) := by
  show (stripWrap strSetOpen strSetClose
      (strSetOpen ++ joinCS (l.map reprElem) ++ strSetClose)).bind _ = _
  rw [stripWrap_eq, Option.some_bind]
  cases l with
  | nil => rfl
  | cons x tl =>
    rw [parseItems_join parseElem reprElem x tl (reprElem_ne_nil x)
      (fun b _ => consumesTop_reprElem b)
      (fun b _ => by rw [trimSp_reprElem]; exact parseElem_reprElem b)]
    rfl

theorem parseIntSet_repr (l : List ℕ) : parseIntSet (reprIntSet l) = some l := by
  show (stripWrap strSetOpen strSetClose
      (strSetOpen ++ joinCS (l.map reprNat) ++ strSetClose)).bind _ = _
  rw [stripWrap_eq, Option.some_bind]
  cases l with
  | nil => rfl
  | cons x tl =>
    exact parseItems_join parseNat reprNat x tl (reprNat_ne_nil x)
      (fun b _ => consumesTop_reprNat b)
      (fun b _ => by rw [trimSp_reprNat]; exact parseNat_reprNat b)

theorem takeWhile_app {p : Char → Bool} {xs : List Char}
    (h : ∀ c ∈ xs, p c = true) (ys : List Char) :
    (xs ++ ys).takeWhile p = xs ++ ys.takeWhile p := by
  induction xs with
  | nil => rfl
  | cons c tl ih =>
    rw [List.cons_append, List.takeWhile_cons, if_pos (h c (by simp))]
    rw [ih (fun x hx => h x (by simp [hx]))]
    rfl

theorem parseEntry_repr (e : ℕ × List ℕ) : parseEntry (reprEntry e) = some e := by
  have hks : (reprEntry e).takeWhile (fun c => !(c = ':')) = reprNat e.1 := by
    show ((reprNat e.1 ++ [':', ' ']) ++ reprIntSet e.2).takeWhile _ = _
    rw [List.append_assoc,
      takeWhile_app (fun c hc =>
        by simp [ne_of_isDig (reprNat_all_dig e.1 c hc) (show isDig ':' = false from by decide)])]
    simp [List.takeWhile_cons]
  have hdrop : (reprEntry e).drop (reprNat e.1).length
      = ':' :: ' ' :: reprIntSet e.2 := by
    show ((reprNat e.1 ++ [':', ' ']) ++ reprIntSet e.2).drop _ = _
    rw [List.append_assoc, List.drop_left]
    rfl
  simp only [parseEntry]
  rw [hks, hdrop, parseNat_reprNat]
  show (parseIntSet (reprIntSet e.2)).map _ = _
  rw [parseIntSet_repr]
  rfl
theorem parseDictV_repr (entries : List (ℕ × List ℕ)) :
    parseDictV (reprVal (.pdict entries)) = some (.pdict entries) := by
  cases entries with
  | nil => decide
  | cons e tl =>
    have e1 : reprVal (.pdict (e :: tl)) =
        lbr :: (joinCS ((e :: tl).map reprEntry) ++ [rbr]) := by
      show (if (e :: tl : List (ℕ × List ℕ)) = [] then [lbr, rbr]
        else lbr :: (joinCS ((e :: tl).map reprEntry) ++ [rbr])) = _
      rw [if_neg (by simp)]
    rw [e1]
    show (if lbr = lbr ∧ (joinCS ((e :: tl).map reprEntry) ++ [rbr]).getLast?
        = some rbr then
      (parseItems parseEntry
        (joinCS ((e :: tl).map reprEntry) ++ [rbr]).dropLast).map PyVal.pdict
      else none) = _
    rw [if_pos ⟨rfl, List.getLast?_concat _⟩, List.dropLast_concat]
    rw [parseItems_join parseEntry reprEntry e tl (reprEntry_ne_nil e)
      (fun b _ => consumesTop_reprEntry b)
      (fun b _ => by rw [trimSp_reprEntry]; exact parseEntry_repr b)]
    rfl

theorem parseTupleNat_wrap {inner : List Char} (h : inner ≠ []) :
    parseTupleNat (['('] ++ inner ++ [')']) =
      (splitTop 0 (if inner.getLast? = some ',' then inner.dropLast else inner)
        []).mapM (fun c => parseNat (trimSp c)) := by
  show (stripWrap ['('] [')'] _).bind _ = _
  rw [stripWrap_eq, Option.some_bind]
  rcases inner with _ | ⟨c, cs⟩
  · exact absurd rfl h
  · rfl

theorem joinCS_concat_getLast? (l : List (List Char)) (x : List Char)
    (hx : x ≠ []) : (joinCS (l ++ [x])).getLast? = x.getLast? := by
  induction l with
  | nil => rfl
  | cons z zs ih =>
    show (joinCS (z :: (zs ++ [x]))).getLast? = _
    rcases hz : zs ++ [x] with _ | ⟨y, ys⟩
    · exact absurd hz (by simp)
    · rw [hz] at ih
      rw [show joinCS (z :: y :: ys) = (z ++ [',', ' ']) ++ joinCS (y :: ys)
        from rfl]
      rw [List.getLast?_append, ih]
      have hs : x.getLast?.isSome := List.getLast?_isSome.mpr hx
      rw [Option.or_of_isSome hs]

theorem joinCS_map_reprNat_getLast {l : List ℕ} (hl : l ≠ []) :
    ∃ c, (joinCS (l.map reprNat)).getLast? = some c ∧ isDig c = true := by
  have e1 : l.map reprNat = l.dropLast.map reprNat ++ [reprNat (l.getLast hl)] := by
    rw [show [reprNat (l.getLast hl)] = List.map reprNat [l.getLast hl] from rfl,
      ← List.map_append, List.dropLast_append_getLast hl]
  rw [e1, joinCS_concat_getLast? _ _ (reprNat_ne_nil _)]
  have hs : (reprNat (l.getLast hl)).getLast?.isSome :=
    List.getLast?_isSome.mpr (reprNat_ne_nil _)
  obtain ⟨c, hc⟩ := Option.isSome_iff_exists.mp hs
  refine ⟨c, hc, ?_⟩
  exact reprNat_all_dig _ c (List.mem_of_mem_getLast? hc)

theorem parseTupleNat_repr (l : List ℕ) :
    parseTupleNat (reprTupleNat l) = some l := by
  rcases l with _ | ⟨a, _ | ⟨b, tl⟩⟩
  · decide
  · have e1 : reprTupleNat [a] = ['('] ++ (reprNat a ++ [',']) ++ [')'] := by
      show '(' :: (reprNat a ++ [',', ')']) = _
      simp
    rw [e1, parseTupleNat_wrap (by simp)]
    rw [if_pos (List.getLast?_concat _), List.dropLast_concat]
    rw [splitTop_of_consumes (consumesTop_reprNat a) []]
    simp only [List.reverse_nil, List.nil_append]
    rw [List.mapM_cons, trimSp_reprNat, parseNat_reprNat]
    rfl
  · have e1 : reprTupleNat (a :: b :: tl) =
        ['('] ++ joinCS ((a :: b :: tl).map reprNat) ++ [')'] := by
      show '(' :: (joinCS ((a :: b :: tl).map reprNat) ++ [')']) = _
      simp
    have hne : joinCS ((a :: b :: tl).map reprNat) ≠ [] := by
      show joinCS (reprNat a :: (b :: tl).map reprNat) ≠ []
      exact joinCS_ne_nil _ (reprNat_ne_nil a)
    rw [e1, parseTupleNat_wrap hne]
    obtain ⟨c, hc, hcd⟩ := joinCS_map_reprNat_getLast
      (show (a :: b :: tl : List ℕ) ≠ [] from by simp)
    have hne2 : ¬(joinCS ((a :: b :: tl).map reprNat)).getLast? = some ',' := by
      rw [hc]
      intro h2
      injection h2 with h3
      exact ne_of_isDig hcd (by decide) h3
    rw [if_neg hne2]
    exact mapM_splitTop_join parseNat reprNat a (b :: tl)
      (fun x _ => consumesTop_reprNat x)
      (fun x _ => by rw [trimSp_reprNat]; exact parseNat_reprNat x)

theorem reprTupleNat_head (l : List ℕ) : ∃ t, reprTupleNat l = '(' :: t := by
  rcases l with _ | ⟨a, _ | ⟨b, tl⟩⟩
  · exact ⟨[')'], rfl⟩
  · exact ⟨reprNat a ++ [',', ')'], rfl⟩
  · exact ⟨joinCS ((a :: b :: tl).map reprNat) ++ [')'], rfl⟩

theorem parseWhereV_wrap {inner : List Char} (c : Char) (cs : List Char)
    (he : inner = c :: cs) :
    parseWhereV (['('] ++ inner ++ [')']) =
      (match splitTop 0 inner [] with
        | [x, y] =>
          match parseTupleNat (trimSp x), parseTupleNat (trimSp y) with
          | some ms, some idx => some (.pwhere ms idx)
          | _, _ => none
        | _ => none) := by
  show (stripWrap ['('] [')'] _).bind _ = _
  rw [stripWrap_eq, Option.some_bind, he]

theorem parseWhereV_repr (ms idx : List ℕ) :
    parseWhereV (reprVal (.pwhere ms idx)) = some (.pwhere ms idx) := by
  by_cases h : ms = [] ∧ idx = []
  · obtain ⟨rfl, rfl⟩ := h
    decide
  · have e1 : reprVal (.pwhere ms idx) =
        ['('] ++ joinCS [reprTupleNat ms, reprTupleNat idx] ++ [')'] := by
      show (if ms = [] ∧ idx = [] then ['(', ')']
        else '(' :: ((reprTupleNat ms ++ sepCS ++ reprTupleNat idx) ++ [')'])) = _
      rw [if_neg h]
      show '(' :: ((reprTupleNat ms ++ sepCS ++ reprTupleNat idx) ++ [')']) = _
      simp [joinCS, sepCS]
    obtain ⟨t, ht⟩ := reprTupleNat_head ms
    rw [e1, parseWhereV_wrap '(' ((t ++ sepCS) ++ reprTupleNat idx)
      (by rw [show joinCS [reprTupleNat ms, reprTupleNat idx]
          = (reprTupleNat ms ++ sepCS) ++ reprTupleNat idx from by
            show reprTupleNat ms ++ [',', ' '] ++ reprTupleNat idx = _
            rfl, ht]
          rfl)]
    rw [splitTop_joinCS [reprTupleNat idx] (reprTupleNat ms) [] ?hcons]
    case hcons =>
      intro y hy
      rcases List.mem_cons.mp hy with rfl | hy2
      · exact consumesTop_reprTupleNat ms
      · rcases List.mem_cons.mp hy2 with rfl | h3
        · exact consumesTop_reprTupleNat idx
        · simp at h3
    simp only [List.reverse_nil, List.nil_append, List.map_cons, List.map_nil]
    show (match parseTupleNat (trimSp (reprTupleNat ms)),
        parseTupleNat (trimSp (' ' :: reprTupleNat idx)) with
      | some ms, some idx => some (PyVal.pwhere ms idx)
      | _, _ => none) = _
    rw [trimSp_reprTupleNat, trimSp_space, trimSp_reprTupleNat,
      parseTupleNat_repr, parseTupleNat_repr]
theorem pyEval_head_s {l : List Char} (h : l.head? = some 's') :
    pyEval l = parseSetV l := by
  rcases l with _ | ⟨c, tl⟩
  · simp at h
  · simp only [List.head?_cons, Option.some_inj] at h
    subst h
    rfl

theorem pyEval_head_paren {l : List Char} (h : l.head? = some '(') :
    pyEval l = parseWhereV l := by
  rcases l with _ | ⟨c, tl⟩
  · simp at h
  · simp only [List.head?_cons, Option.some_inj] at h
    subst h
    rfl

theorem pyEval_head_lbr {l : List Char} (h : l.head? = some lbr) :
    pyEval l = parseDictV l := by
  rcases l with _ | ⟨c, tl⟩
  · simp at h
  · simp only [List.head?_cons, Option.some_inj] at h
    subst h
    rfl

theorem pyEval_reprVal (v : PyVal) : pyEval (reprVal v) = some v := by
  cases v with
  | pset l =>
    rw [pyEval_head_s (show (reprVal (.pset l)).head? = some 's' from rfl)]
    exact parseSetV_repr l
  | pdict entries =>
    cases entries with
    | nil => decide
    | cons e tl =>
      have hh : (reprVal (.pdict (e :: tl))).head? = some lbr := by
        show (if (e :: tl : List (ℕ × List ℕ)) = [] then [lbr, rbr]
          else lbr :: (joinCS ((e :: tl).map reprEntry) ++ [rbr])).head? = _
        rw [if_neg (by simp)]
        rfl
      rw [pyEval_head_lbr hh]
      exact parseDictV_repr (e :: tl)
  | pwhere ms idx =>
    have hh : (reprVal (.pwhere ms idx)).head? = some '(' := by
      show (if ms = [] ∧ idx = [] then ['(', ')']
        else '(' :: ((reprTupleNat ms ++ sepCS ++ reprTupleNat idx) ++ [')'])).head?
        = _
      by_cases h : ms = [] ∧ idx = []
      · rw [if_pos h]
        rfl
      · rw [if_neg h]
        rfl
    rw [pyEval_head_paren hh]
    exact parseWhereV_repr ms idx
/-! ## Codec: message splitting and the rsplit search -/

theorem splitSemi_step (c : Char) (rest acc : List Char)
    (h : ¬(c = ';' ∧ rest.head? = some ' ')) :
    splitSemi (c :: rest) acc = splitSemi rest (c :: acc) := by
  rw [splitSemi.eq_def]
  split
  · rename_i heq
    simp at heq
  · rename_i rest2 heq
    injection heq with e1 e2
    refine absurd ⟨e1, ?_⟩ h
    rw [e2]
    rfl
  · rename_i c2 rest2 hno heq
    injection heq with e1 e2
    rw [e1, e2]

theorem head?_append_or (tl ys : List Char) (nxt : Option Char) :
    ((tl ++ ys).head?).or nxt = (tl.head?).or ((ys.head?).or nxt) := by
  cases tl with
  | nil => simp
  | cons c t => simp

theorem semiFree_append {xs ys : List Char} {nxt : Option Char}
    (hx : semiFree xs ((ys.head?).or nxt) = true)
    (hy : semiFree ys nxt = true) : semiFree (xs ++ ys) nxt = true := by
  induction xs with
  | nil => exact hy
  | cons c tl ih =>
    simp only [semiFree, Bool.and_eq_true] at hx
    simp only [List.cons_append, semiFree, Bool.and_eq_true]
    refine ⟨?_, ih hx.2⟩
    show (!(decide (c = ';')
      && decide (((tl ++ ys).head?).or nxt = some ' '))) = true
    rw [head?_append_or]
    exact hx.1

theorem semiFree_of_no_semi {l : List Char} (h : ∀ c ∈ l, c ≠ ';')
    (nxt : Option Char) : semiFree l nxt = true := by
  induction l with
  | nil => rfl
  | cons c tl ih =>
    simp only [semiFree, Bool.and_eq_true]
    refine ⟨?_, ih (fun x hx => h x (by simp [hx]))⟩
    simp [h c (by simp)]

theorem splitSemi_consume {xs : List Char} (rest : List Char)
    (h : semiFree xs rest.head? = true) (acc : List Char) :
    splitSemi (xs ++ rest) acc = splitSemi rest (xs.reverse ++ acc) := by
  induction xs generalizing acc with
  | nil => simp
  | cons c tl ih =>
    simp only [semiFree, Bool.and_eq_true] at h
    have hs : ¬(c = ';' ∧ (tl ++ rest).head? = some ' ') := by
      intro ⟨e1, e2⟩
      have h3 := h.1
      rw [e1] at h3
      rw [show (tl ++ rest).head? = (tl.head?).or rest.head? from by
        rw [show rest.head? = (rest.head?).or none from by cases rest.head? <;> rfl]
        rw [← head?_append_or]
        cases (tl ++ rest).head? <;> rfl] at e2
      simp [e2] at h3
    rw [List.cons_append, splitSemi_step c (tl ++ rest) acc hs, ih h.2]
    simp

theorem splitSemi_joinSemi :
    ∀ (tl : List (List Char)) (x acc : List Char),
      (∀ y ∈ x :: tl, ∀ nxt, semiFree y nxt = true) →
      splitSemi (joinSemi (x :: tl)) acc = (acc.reverse ++ x) :: tl := by
  intro tl
  induction tl with
  | nil =>
    intro x acc h
    show splitSemi x acc = _
    rw [show x = x ++ [] from (List.append_nil x).symm,
      splitSemi_consume [] (h x (by simp) none) acc]
    show [(x.reverse ++ acc).reverse] = _
    simp
  | cons y tl2 ih =>
    intro x acc h
    show splitSemi (x ++ [';', ' '] ++ joinSemi (y :: tl2)) acc = _
    rw [List.append_assoc,
      splitSemi_consume ([';', ' '] ++ joinSemi (y :: tl2))
        (h x (by simp) (some ';')) acc]
    show (x.reverse ++ acc).reverse :: splitSemi (joinSemi (y :: tl2)) [] = _
    rw [ih y [] (fun z hz => h z (List.mem_cons_of_mem _ hz))]
    simp

theorem lastOcc_eq_none {pat l : List Char} :
    lastOcc pat l = none ↔ hasSub pat l = false := by
  induction l with
  | nil =>
    show (if isPre pat [] then some 0 else none) = none ↔ isPre pat [] = false
    by_cases h : isPre pat []
    · simp [h]
    · simp [h]
  | cons c rest ih =>
    rcases ho : lastOcc pat rest with _ | k
    · have hr : hasSub pat rest = false := ih.mp ho
      show (match lastOcc pat rest with
        | some k => some (k + 1)
        | none => if isPre pat (c :: rest) then some 0 else none) = none ↔
        (isPre pat (c :: rest) || hasSub pat rest) = false
      rw [ho, hr]
      by_cases h : isPre pat (c :: rest)
      · simp [h]
      · simp [h]
    · have hr : hasSub pat rest = true := by
        rcases hh : hasSub pat rest with _ | _
        · rw [ih.mpr hh] at ho
          exact absurd ho (by simp)
        · rfl
      show (match lastOcc pat rest with
        | some k => some (k + 1)
        | none => if isPre pat (c :: rest) then some 0 else none) = none ↔
        (isPre pat (c :: rest) || hasSub pat rest) = false
      rw [ho, hr]
      simp

theorem isPre_strAt_false {l : List Char} (h : ∀ c ∈ l, c ≠ 'a') :
    isPre strAt l = false := by
  rcases l with _ | ⟨c, _ | ⟨d, rest⟩⟩
  · rfl
  · show (decide (' ' = c) && isPre ['a', 't', ' '] []) = false
    show (decide (' ' = c) && false) = false
    simp
  · have hd : ¬('a' = d) := fun e => h d (by simp) e.symm
    show (decide (' ' = c) && (decide ('a' = d) && isPre ['t', ' '] rest)) = false
    simp [hd]

theorem hasSub_strAt_false {l : List Char} (h : ∀ c ∈ l, c ≠ 'a') :
    hasSub strAt l = false := by
  induction l with
  | nil => rfl
  | cons c rest ih =>
    show (isPre strAt (c :: rest) || hasSub strAt rest) = false
    rw [isPre_strAt_false h, ih (fun x hx => h x (by simp [hx]))]
    rfl

theorem lastOcc_strAt_payload {payload : List Char}
    (h : ∀ c ∈ payload, c ≠ 'a') :
    lastOcc strAt ('a' :: 't' :: ' ' :: payload) = none := by
  apply lastOcc_eq_none.mpr
  show (isPre strAt ('a' :: 't' :: ' ' :: payload)
    || hasSub strAt ('t' :: ' ' :: payload)) = false
  have h9 : hasSub strAt ('t' :: ' ' :: payload) = false := by
    apply hasSub_strAt_false
    intro x hx
    rcases List.mem_cons.mp hx with rfl | hx2
    · decide
    · rcases List.mem_cons.mp hx2 with rfl | hx3
      · decide
      · exact h x hx3
  rw [h9]
  show (decide (' ' = 'a') && isPre ['a', 't', ' '] ('t' :: ' ' :: payload)
    || false) = false
  simp

theorem lastOcc_encode (name payload : List Char)
    (hp : ∀ c ∈ payload, c ≠ 'a') :
    lastOcc strAt (name ++ strAt ++ payload) = some name.length := by
  induction name with
  | nil =>
    show lastOcc strAt (' ' :: 'a' :: 't' :: ' ' :: payload) = some 0
    show (match lastOcc strAt ('a' :: 't' :: ' ' :: payload) with
      | some k => some (k + 1)
      | none => if isPre strAt (' ' :: 'a' :: 't' :: ' ' :: payload)
          then some 0 else none) = some 0
    rw [lastOcc_strAt_payload hp]
    rw [if_pos ?hpre]
    case hpre =>
      show (decide (' ' = ' ') && (decide ('a' = 'a') && (decide ('t' = 't')
        && (decide (' ' = ' ') && isPre [] payload)))) = true
      show (decide (' ' = ' ') && (decide ('a' = 'a') && (decide ('t' = 't')
        && (decide (' ' = ' ') && true)))) = true
      simp
  | cons c nm ih =>
    show (match lastOcc strAt (nm ++ strAt ++ payload) with
      | some k => some (k + 1)
      | none => if isPre strAt (c :: (nm ++ strAt ++ payload))
          then some 0 else none) = some (nm.length + 1)
    rw [ih]
/-! ## Codec: the collapsed clause loop -/

theorem collapsedGo_cons_hit {c : List Char} {p : ℕ} {v : PyVal}
    (rest : List (List Char)) (acc : List (List Char × PyVal))
    (h1 : lastOcc strAt c = some p)
    (h2 : pyEval (c.drop (p + strAt.length)) = some v) :
    collapsedGo (c :: rest) acc = collapsedGo rest (upsert acc (c.take p) v) := by
  show (match lastOcc strAt c with
    | none => collapsedGo rest acc
    | some p =>
      match pyEval (c.drop (p + strAt.length)) with
      | none => none
      | some v => collapsedGo rest (upsert acc (c.take p) v)) = _
  rw [h1]
  show (match pyEval (c.drop (p + strAt.length)) with
    | none => none
    | some v => collapsedGo rest (upsert acc (c.take p) v)) = _
  rw [h2]

theorem collapsedGo_cons_miss {c : List Char} (rest : List (List Char))
    (acc : List (List Char × PyVal)) (h : lastOcc strAt c = none) :
    collapsedGo (c :: rest) acc = collapsedGo rest acc := by
  show (match lastOcc strAt c with
    | none => collapsedGo rest acc
    | some p =>
      match pyEval (c.drop (p + strAt.length)) with
      | none => none
      | some v => collapsedGo rest (upsert acc (c.take p) v)) = _
  rw [h]

theorem collapsedGo_skips {l : List (List Char)}
    (h : ∀ c ∈ l, hasSub strAt c = false) :
    ∀ acc, collapsedGo l acc = some acc := by
  induction l with
  | nil => intro acc; rfl
  | cons c rest ih =>
    intro acc
    rw [collapsedGo_cons_miss rest acc (lastOcc_eq_none.mpr (h c (by simp)))]
    exact ih (fun x hx => h x (by simp [hx])) acc

theorem encodeClause_take (name : List Char) (v : PyVal) :
    (encodeClause name v).take name.length = name := by
  show ((name ++ strAt) ++ reprVal v).take name.length = _
  rw [List.append_assoc, List.take_left]

theorem encodeClause_drop (name : List Char) (v : PyVal) :
    (encodeClause name v).drop (name.length + strAt.length) = reprVal v := by
  show ((name ++ strAt) ++ reprVal v).drop (name.length + strAt.length) = _
  rw [show name.length + strAt.length = (name ++ strAt).length from
    (List.length_append _ _).symm, List.drop_left]

theorem lastOcc_encodeClause (name : List Char) (v : PyVal) :
    lastOcc strAt (encodeClause name v) = some name.length :=
  lastOcc_encode name (reprVal v)
    (fun c hc => reprChar_ne_a (reprVal_chars v c hc))

theorem collapsedGo_encode (clauses : List (List Char × PyVal)) :
    ∀ acc, collapsedGo (clauses.map (fun e => encodeClause e.1 e.2)) acc
      = some (clauses.foldl (fun a e => upsert a e.1 e.2) acc) := by
  induction clauses with
  | nil => intro acc; rfl
  | cons e tl ih =>
    intro acc
    show collapsedGo (encodeClause e.1 e.2 :: tl.map _) acc = _
    rw [collapsedGo_cons_hit (tl.map _) acc (lastOcc_encodeClause e.1 e.2)
      (by rw [encodeClause_drop]; exact pyEval_reprVal e.2)]
    rw [encodeClause_take, ih]
    rfl

theorem upsert_not_mem {acc : List (List Char × PyVal)} {k : List Char}
    (h : k ∉ acc.map Prod.fst) (v : PyVal) : upsert acc k v = acc ++ [(k, v)] := by
  unfold upsert
  rw [if_neg ?hany]
  case hany =>
    intro ha
    obtain ⟨x, hx, hxk⟩ := List.any_eq_true.mp ha
    exact h (List.mem_map.mpr ⟨x, hx, of_decide_eq_true hxk⟩)

theorem foldl_upsert_append (clauses : List (List Char × PyVal)) :
    ∀ acc, (acc.map Prod.fst ++ clauses.map Prod.fst).Nodup →
      clauses.foldl (fun a e => upsert a e.1 e.2) acc = acc ++ clauses := by
  induction clauses with
  | nil =>
    intro acc _
    simp
  | cons e tl ih =>
    intro acc h
    show tl.foldl _ (upsert acc e.1 e.2) = _
    obtain ⟨hn1, hn2, hdisj⟩ := List.nodup_append.mp h
    have hnotin : e.1 ∉ acc.map Prod.fst := fun hin =>
      hdisj hin (List.mem_map_of_mem Prod.fst (List.mem_cons_self e tl))
    rw [upsert_not_mem hnotin e.2, ih (acc ++ [e]) ?hnodup]
    · simp
    case hnodup =>
      have heq : (acc ++ [e]).map Prod.fst ++ tl.map Prod.fst
          = acc.map Prod.fst ++ (e :: tl).map Prod.fst := by
        simp
      rw [heq]
      exact h

theorem semiFree_encodeClause {name : List Char} (v : PyVal)
    (h : semiFree name (some ' ') = true) (nxt : Option Char) :
    semiFree (encodeClause name v) nxt = true := by
  show semiFree ((name ++ strAt) ++ reprVal v) nxt = true
  refine semiFree_append ?_ (semiFree_of_no_semi
    (fun c hc => reprChar_ne_semi (reprVal_chars v c hc)) nxt)
  refine semiFree_append ?_ (semiFree_of_no_semi (by decide) _)
  show semiFree name ((strAt.head?).or _) = true
  show semiFree name (some ' ') = true
  exact h

/-- C5: decoding an encoded message recovers the structured result for every
supported collapse-result shape: a single clause `name at repr(result)`
decodes to the one-entry mapping, and a `"; "`-joined concatenation of
clauses with distinct names decodes to the mapping holding every
`(name, result)` pair.  The clause names must not themselves contain the
`"; "` separator (including a trailing `;`, merged with the space that
follows the name), which is what `semiFree name (some ' ')` states. -/
theorem C5_roundtrip :
    (∀ (name : List Char) (v : PyVal), semiFree name (some ' ') = true →
      collapsed (encodeClause name v) = some (some [(name, v)])) ∧
    (∀ clauses : List (List Char × PyVal), clauses ≠ [] →
      (clauses.map Prod.fst).Nodup →
      (∀ e ∈ clauses, semiFree e.1 (some ' ') = true) →
      collapsed (encodeReason clauses) = some (some clauses)) := by
  have main : ∀ clauses : List (List Char × PyVal), clauses ≠ [] →
      (clauses.map Prod.fst).Nodup →
      (∀ e ∈ clauses, semiFree e.1 (some ' ') = true) →
      collapsed (encodeReason clauses) = some (some clauses) := by
    intro clauses hne hnd hsf
    rcases clauses with _ | ⟨e, tl⟩
    · exact absurd rfl hne
    unfold collapsed
    have hsplit : splitSemi (encodeReason (e :: tl)) []
        = (e :: tl).map (fun x => encodeClause x.1 x.2) := by
      show splitSemi (joinSemi ((e :: tl).map (fun x => encodeClause x.1 x.2))) []
        = _
      show splitSemi (joinSemi (encodeClause e.1 e.2
        :: tl.map (fun x => encodeClause x.1 x.2))) [] = _
      rw [splitSemi_joinSemi (tl.map (fun x => encodeClause x.1 x.2))
        (encodeClause e.1 e.2) [] ?hsf2]
      · simp
      case hsf2 =>
        intro y hy nxt
        rcases List.mem_cons.mp hy with rfl | hy2
        · exact semiFree_encodeClause e.2 (hsf e (by simp)) nxt
        · obtain ⟨b, hb, rfl⟩ := List.mem_map.mp hy2
          exact semiFree_encodeClause b.2 (hsf b (List.mem_cons_of_mem _ hb)) nxt
    rw [hsplit, collapsedGo_encode (e :: tl) [],
      foldl_upsert_append (e :: tl) [] hnd]
    simp
  refine ⟨?_, main⟩
  intro name v h
  exact main [(name, v)] (by simp) (by simp)
    (fun e he => by rw [List.mem_singleton.mp he]; exact h)

/-- Witness for C5: a concrete single clause and a concrete two-clause
reason, one for each branch of the roundtrip. -/
theorem C5_roundtrip_witness :
    collapsed (encodeClause ['V', 'T', 'R'] (.pset [.pint 0, .ppair 1 2]))
        = some (some [(['V', 'T', 'R'], .pset [.pint 0, .ppair 1 2])]) ∧
    collapsed (encodeReason [(['w'], .pdict [(3, [0, 1])]),
        (['x'], .pwhere [2] [5])])
      = some (some [(['w'], .pdict [(3, [0, 1])]), (['x'], .pwhere [2] [5])]) :=
  ⟨C5_roundtrip.1 ['V', 'T', 'R'] _ (by decide),
   C5_roundtrip.2 [(['w'], .pdict [(3, [0, 1])]), (['x'], .pwhere [2] [5])]
     (by decide) (by decide) (by decide)⟩

/-- C10: a termination reason none of whose `"; "`-separated clauses
contains the `" at "` separator makes `collapsed` return `None` (the inner
`none`), never an empty mapping; conversely a message on which `collapsed`
returns a mapping has at least one clause containing the separator. -/
theorem C10_no_separator_returns_none :
    (∀ msg : List Char,
      (∀ c ∈ splitSemi msg [], hasSub strAt c = false) →
      collapsed msg = some none) ∧
    (∀ (msg : List Char) (d : List (List Char × PyVal)),
      collapsed msg = some (some d) →
      ∃ c ∈ splitSemi msg [], hasSub strAt c = true) := by
  have key : ∀ msg : List Char,
      (∀ c ∈ splitSemi msg [], hasSub strAt c = false) →
      collapsed msg = some none := by
    intro msg h
    unfold collapsed
    rw [collapsedGo_skips h []]
    rfl
  refine ⟨key, ?_⟩
  intro msg d hd
  by_contra hc
  have hall : ∀ c ∈ splitSemi msg [], hasSub strAt c = false := by
    intro c hcm
    rcases hh : hasSub strAt c with _ | _
    · rfl
    · exact absurd ⟨c, hcm, hh⟩ hc
  rw [key msg hall] at hd
  injection hd with hd2
  exact absurd hd2.symm (by simp)

/-- Witness for C10: the plain predicate reason `"VTR with 0.001"` has no
`" at "` clause and decodes to `None`. -/
theorem C10_no_separator_returns_none_witness :
    collapsed ['V', 'T', 'R', ' ', 'w', 'i', 't', 'h', ' ',
      '0', '.', '0', '0', '1'] = some none :=
  C10_no_separator_returns_none.1 _ (by decide)
